import Mathlib

set_option maxHeartbeats 1000000

/-!
Verification development for the devito IR lowering / GPU pipeline fragment:
`devito/ir/equations/algorithms.py` (dimension_sort, lower_exprs,
concretize_subdims) and `devito/core/gpu.py` (options normalization and the
streaming/tasking classifiers).  Each Python function is shallowly embedded
as an executable Lean definition over a free syntax of the symbolic
expressions it manipulates.
-/

namespace Spec

/-- An iteration/index dimension.  `basic` covers ordinary and spacing-free
dimensions, `stencil` a StencilDimension (dropped from relations by
`dimension_sort`), `derived` a DerivedDimension with its parent and the
`indirect` flag (`devito/types/dimension.py`, consumed via `d.is_Derived`,
`d.indirect`, `d.parent`, `d.index` in `algorithms.py`). -/
inductive Dim where
  | basic (name : String)
  | stencil (name : String)
  | derived (name : String) (parent : Dim) (indirect : Bool)
deriving DecidableEq, Repr

/-- The dimension's name. -/
def Dim.name : Dim → String
  | .basic n => n
  | .stencil n => n
  | .derived n _ _ => n

/-- `d.is_Stencil`. -/
def Dim.isStencil : Dim → Bool
  | .stencil _ => true
  | _ => false

/-- `d.is_Derived`. -/
def Dim.isDerived : Dim → Bool
  | .derived _ _ _ => true
  | _ => false

/-- `d.indirect`. -/
def Dim.indirectFlag : Dim → Bool
  | .derived _ _ i => i
  | _ => false

/-- `d.parent` for a derived dimension. -/
def Dim.parentD : Dim → Option Dim
  | .derived _ p _ => some p
  | _ => none

/-- Modelled from the spec: a dimension's distinct backing index
("within each relation, insert a dimension's distinct backing index
immediately before it").  For a non-indirect derived dimension the backing
index is its parent; otherwise the dimension itself (so that
`d.index.name == d.name` and nothing is inserted). -/
def Dim.index : Dim → Dim
  | .derived n p i => if i then .derived n p i else p
  | d => d

/-- The name of the dimension's grid-spacing symbol (`d.spacing`, a sympy
symbol conventionally named `h_<dim>`). -/
def Dim.spacingName (d : Dim) : String := "h_" ++ d.name

/-- A discrete function: its name, the dimensions it is defined over, and
`f._size_nodomain.left`, the per-dimension left halo+padding size used to
align accesses with the computational domain. -/
structure Func where
  name : String
  dims : List Dim
  sizeLeft : List Int
deriving DecidableEq, Repr

/-- Free syntax of the symbolic expressions manipulated by
`lower_exprs`/`dimension_sort`: dimension symbols, plain symbols (e.g. grid
spacings), integer literals, arithmetic, indexed accesses `f[es]`, and
equations.  Sympy's automatic flattening/simplification is not modelled:
terms are compared as trees. -/
inductive SExpr where
  | dimr (d : Dim)
  | sym (s : String)
  | num (n : Int)
  | add (a b : SExpr)
  | mul (a b : SExpr)
  | neg (a : SExpr)
  | indexed (f : Func) (es : List SExpr)
  | eqn (l r : SExpr)

mutual

/-- Boolean structural equality on expressions. -/
def SExpr.beq : SExpr → SExpr → Bool
  | .dimr a, .dimr b => a = b
  | .sym a, .sym b => a = b
  | .num a, .num b => a = b
  | .add a b, .add c d => SExpr.beq a c && SExpr.beq b d
  | .mul a b, .mul c d => SExpr.beq a c && SExpr.beq b d
  | .neg a, .neg b => SExpr.beq a b
  | .indexed f es, .indexed g fs => f = g && SExpr.beqList es fs
  | .eqn a b, .eqn c d => SExpr.beq a c && SExpr.beq b d
  | _, _ => false
termination_by structural a => a

/-- Boolean structural equality on expression lists. -/
def SExpr.beqList : List SExpr → List SExpr → Bool
  | [], [] => true
  | a :: as, b :: bs => SExpr.beq a b && SExpr.beqList as bs
  | _, _ => false
termination_by structural as => as

end

mutual

theorem SExpr.eq_of_beq : ∀ {a b : SExpr}, SExpr.beq a b = true → a = b
  | .dimr _, .dimr _, h => by
    simp only [SExpr.beq, decide_eq_true_eq] at h; rw [h]
  | .sym _, .sym _, h => by
    simp only [SExpr.beq, decide_eq_true_eq] at h; rw [h]
  | .num _, .num _, h => by
    simp only [SExpr.beq, decide_eq_true_eq] at h; rw [h]
  | .add a b, .add c d, h => by
    simp only [SExpr.beq, Bool.and_eq_true] at h
    rw [SExpr.eq_of_beq h.1, SExpr.eq_of_beq h.2]
  | .mul a b, .mul c d, h => by
    simp only [SExpr.beq, Bool.and_eq_true] at h
    rw [SExpr.eq_of_beq h.1, SExpr.eq_of_beq h.2]
  | .neg a, .neg b, h => by
    simp only [SExpr.beq] at h
    rw [SExpr.eq_of_beq h]
  | .indexed f es, .indexed g fs, h => by
    simp only [SExpr.beq, Bool.and_eq_true, decide_eq_true_eq] at h
    rw [h.1, SExpr.eqList_of_beqList h.2]
  | .eqn a b, .eqn c d, h => by
    simp only [SExpr.beq, Bool.and_eq_true] at h
    rw [SExpr.eq_of_beq h.1, SExpr.eq_of_beq h.2]

theorem SExpr.eqList_of_beqList : ∀ {as bs : List SExpr},
    SExpr.beqList as bs = true → as = bs
  | [], [], _ => rfl
  | a :: as, b :: bs, h => by
    simp only [SExpr.beqList, Bool.and_eq_true] at h
    rw [SExpr.eq_of_beq h.1, SExpr.eqList_of_beqList h.2]

end

mutual

theorem SExpr.beq_refl : ∀ (a : SExpr), SExpr.beq a a = true
  | .dimr _ => by simp [SExpr.beq]
  | .sym _ => by simp [SExpr.beq]
  | .num _ => by simp [SExpr.beq]
  | .add a b => by simp [SExpr.beq, SExpr.beq_refl a, SExpr.beq_refl b]
  | .mul a b => by simp [SExpr.beq, SExpr.beq_refl a, SExpr.beq_refl b]
  | .neg a => by simp [SExpr.beq, SExpr.beq_refl a]
  | .indexed f es => by simp [SExpr.beq, SExpr.beqList_refl es]
  | .eqn a b => by simp [SExpr.beq, SExpr.beq_refl a, SExpr.beq_refl b]

theorem SExpr.beqList_refl : ∀ (as : List SExpr), SExpr.beqList as as = true
  | [] => rfl
  | a :: as => by simp [SExpr.beqList, SExpr.beq_refl a, SExpr.beqList_refl as]

end

instance : DecidableEq SExpr := fun a b =>
  if h : SExpr.beq a b = true then .isTrue (SExpr.eq_of_beq h)
  else .isFalse (fun he => h (he ▸ SExpr.beq_refl a))

/-- First-match lookup of an expression among the keys of a substitution
mapping (the Lean counterpart of a Python dict keyed by expressions; on
duplicate keys the earlier binding wins, so callers list overriding
bindings first). -/
def lookupSE (m : List (SExpr × SExpr)) (e : SExpr) : Option SExpr :=
  match m with
  | [] => none
  | (k, v) :: rest => if k = e then some v else lookupSE rest e

mutual

/-- Simultaneous exact-subtree substitution: `uxreplace(expr, mapper)`
(and sympy's `xreplace`, which has the same semantics).  A node equal to a
mapper key is replaced by the value without recursing into the replacement;
otherwise the children are rewritten. -/
def uxreplace (m : List (SExpr × SExpr)) (e : SExpr) : SExpr :=
  match lookupSE m e with
  | some v => v
  | none =>
    match e with
    | .add a b => .add (uxreplace m a) (uxreplace m b)
    | .mul a b => .mul (uxreplace m a) (uxreplace m b)
    | .neg a => .neg (uxreplace m a)
    | .indexed f es => .indexed f (uxreplaceList m es)
    | .eqn a b => .eqn (uxreplace m a) (uxreplace m b)
    | e' => e'
termination_by structural e

/-- `uxreplace` mapped over a list of expressions. -/
def uxreplaceList (m : List (SExpr × SExpr)) (es : List SExpr) : List SExpr :=
  match es with
  | [] => []
  | a :: as => uxreplace m a :: uxreplaceList m as
termination_by structural es

end

/-- `retrieve_indexed(expr)`: all outermost indexed accesses of an
expression, left to right; the search does not descend into the indices of
an access (that is the `deep=True` variant). -/
def retrieveIndexed : SExpr → List SExpr
  | .indexed f es => [.indexed f es]
  | .add a b => retrieveIndexed a ++ retrieveIndexed b
  | .mul a b => retrieveIndexed a ++ retrieveIndexed b
  | .neg a => retrieveIndexed a
  | .eqn a b => retrieveIndexed a ++ retrieveIndexed b
  | _ => []

mutual

/-- `retrieve_indexed(expr, deep=True)`: every indexed access at any depth,
including accesses nested inside the indices of other accesses. -/
def retrieveIndexedDeep : SExpr → List SExpr
  | .indexed f es => .indexed f es :: retrieveIndexedDeepList es
  | .add a b => retrieveIndexedDeep a ++ retrieveIndexedDeep b
  | .mul a b => retrieveIndexedDeep a ++ retrieveIndexedDeep b
  | .neg a => retrieveIndexedDeep a
  | .eqn a b => retrieveIndexedDeep a ++ retrieveIndexedDeep b
  | _ => []
termination_by structural e => e

/-- `retrieveIndexedDeep` over a list of expressions. -/
def retrieveIndexedDeepList : List SExpr → List SExpr
  | [] => []
  | a :: as => retrieveIndexedDeep a ++ retrieveIndexedDeepList as
termination_by structural l => l

end

mutual

/-- `retrieve_dimensions(expr, deep=True)` / `expr.atoms(Dimension)`: every
dimension symbol occurring in the expression, at any depth (the dimensions a
function is defined over are attributes of the function, not sub-expressions,
so they are not collected here). -/
def dimAtoms : SExpr → List Dim
  | .dimr d => [d]
  | .add a b => dimAtoms a ++ dimAtoms b
  | .mul a b => dimAtoms a ++ dimAtoms b
  | .neg a => dimAtoms a
  | .indexed _ es => dimAtomsList es
  | .eqn a b => dimAtoms a ++ dimAtoms b
  | _ => []
termination_by structural e => e

/-- `dimAtoms` over a list of expressions. -/
def dimAtomsList : List SExpr → List Dim
  | [] => []
  | a :: as => dimAtoms a ++ dimAtomsList as
termination_by structural l => l

end

/-- The spacing substitution applied to an access's index along its own
dimension: `i.xreplace({d.spacing: 1, -d.spacing: -1})`. -/
def spacingSubst (d : Dim) (e : SExpr) : SExpr :=
  uxreplace [(.sym d.spacingName, .num 1), (.neg (.sym d.spacingName), .num (-1))] e

mutual

/-- `_lower_exprs(expr, subs)` for a single expression.  The subdomain
`dimension_map` is empty (the claims concern plain relationals without a
subdomain) and bare unindexed function references do not occur in this
syntax, so the mapper consists of the per-access replacements plus the
caller-supplied `subs`; `subs` is listed first so that it wins on key
collision (`mapper.update(subs)`), and the whole mapping is applied in one
simultaneous `uxreplace` pass. -/
def lowerExprs (subs : List (SExpr × SExpr)) (e : SExpr) : SExpr :=
  uxreplace (subs ++ lowerMapper subs e) e

/-- The per-access entries of the `_lower_exprs` mapper, in
`retrieve_indexed` order: every outermost indexed access `i` of the
expression is mapped to `f.indexed[indices]` where the indices are
recursively lowered, shifted by `f._size_nodomain.left`
(`_lower_exprs(a, subs) + o`) and then have their own dimension's spacing
symbol replaced by `1`/`-1`. -/
def lowerMapper (subs : List (SExpr × SExpr)) (e : SExpr) : List (SExpr × SExpr) :=
  match e with
  | .indexed f es =>
    [(.indexed f es,
      .indexed f (List.zipWith (fun i d => spacingSubst d i)
        (lowerShift subs es f.sizeLeft) f.dims))]
  | .add a b => lowerMapper subs a ++ lowerMapper subs b
  | .mul a b => lowerMapper subs a ++ lowerMapper subs b
  | .neg a => lowerMapper subs a
  | .eqn a b => lowerMapper subs a ++ lowerMapper subs b
  | _ => []

/-- `[_lower_exprs(a, subs) + o for a, o in zip(i.indices,
f._size_nodomain.left)]`: each index is recursively lowered and shifted by
the matching left halo+padding size (the zip truncates to the shorter
list, as in Python). -/
def lowerShift (subs : List (SExpr × SExpr)) (es : List SExpr) (os : List Int) :
    List SExpr :=
  match es, os with
  | a :: as, o :: osr => .add (lowerExprs subs a) (.num o) :: lowerShift subs as osr
  | _, _ => []

end

mutual

theorem uxreplace_nil : ∀ (e : SExpr), uxreplace [] e = e
  | .dimr _ => by simp [uxreplace, lookupSE]
  | .sym _ => by simp [uxreplace, lookupSE]
  | .num _ => by simp [uxreplace, lookupSE]
  | .add a b => by simp [uxreplace, lookupSE, uxreplace_nil a, uxreplace_nil b]
  | .mul a b => by simp [uxreplace, lookupSE, uxreplace_nil a, uxreplace_nil b]
  | .neg a => by simp [uxreplace, lookupSE, uxreplace_nil a]
  | .indexed f es => by simp [uxreplace, lookupSE, uxreplaceList_nil es]
  | .eqn a b => by simp [uxreplace, lookupSE, uxreplace_nil a, uxreplace_nil b]

theorem uxreplaceList_nil : ∀ (es : List SExpr), uxreplaceList [] es = es
  | [] => by simp [uxreplaceList]
  | a :: as => by simp [uxreplaceList, uxreplace_nil a, uxreplaceList_nil as]

end

theorem lowerMapper_keys (subs : List (SExpr × SExpr)) :
    ∀ (e : SExpr), (lowerMapper subs e).map Prod.fst = retrieveIndexed e
  | .dimr _ => by simp [lowerMapper, retrieveIndexed]
  | .sym _ => by simp [lowerMapper, retrieveIndexed]
  | .num _ => by simp [lowerMapper, retrieveIndexed]
  | .add a b => by
    simp [lowerMapper, retrieveIndexed, lowerMapper_keys subs a, lowerMapper_keys subs b]
  | .mul a b => by
    simp [lowerMapper, retrieveIndexed, lowerMapper_keys subs a, lowerMapper_keys subs b]
  | .neg a => by simp [lowerMapper, retrieveIndexed, lowerMapper_keys subs a]
  | .indexed f es => by simp [lowerMapper, retrieveIndexed]
  | .eqn a b => by
    simp [lowerMapper, retrieveIndexed, lowerMapper_keys subs a, lowerMapper_keys subs b]

/-- An expression with no indexed access contributes no mapper entries. -/
theorem lowerMapper_eq_nil_of_no_indexed (subs : List (SExpr × SExpr)) (e : SExpr)
    (h : retrieveIndexed e = []) : lowerMapper subs e = [] := by
  have hk := lowerMapper_keys subs e
  rw [h] at hk
  exact List.map_eq_nil_iff.mp hk

/-- With no caller substitutions, lowering an expression that contains no
indexed access is the identity. -/
theorem lowerExprs_no_indexed (e : SExpr) (h : retrieveIndexed e = []) :
    lowerExprs [] e = e := by
  rw [lowerExprs, lowerMapper_eq_nil_of_no_indexed [] e h]
  exact uxreplace_nil e

/-- The spacing substitution passes through the halo shift: substituting
`1`/`-1` for the spacing in an already shifted index equals shifting the
substituted index, because neither key matches the sum node or the literal
offset. -/
theorem spacingSubst_add_num (d : Dim) (a : SExpr) (o : Int) :
    spacingSubst d (.add a (.num o)) = .add (spacingSubst d a) (.num o) := by
  simp [spacingSubst, uxreplace, lookupSE]

/-- The composed per-access index rewrite (lower, shift, substitute
spacing) coincides with the claim's reading (raw index with spacing
replaced, then shifted by exactly `+L`) whenever the indices contain no
nested accesses. -/
theorem lowered_indices_eq (es : List SExpr) (ds : List Dim) (os : List Int)
    (h : ∀ a ∈ es, retrieveIndexed a = []) :
    List.zipWith (fun i d => spacingSubst d i) (lowerShift [] es os) ds =
      List.zipWith3 (fun a d o => SExpr.add (spacingSubst d a) (.num o)) es ds os := by
  induction es generalizing ds os with
  | nil => cases os <;> cases ds <;> simp [lowerShift, List.zipWith3]
  | cons a as ih =>
    cases os with
    | nil => cases ds <;> simp [lowerShift, List.zipWith3]
    | cons o osr =>
      cases ds with
      | nil => simp [lowerShift, List.zipWith3]
      | cons d dsr =>
        have ha : lowerExprs [] a = a :=
          lowerExprs_no_indexed a (h a (List.mem_cons_self a as))
        have ih' := ih dsr osr (fun x hx => h x (List.mem_cons_of_mem a hx))
        simp [lowerShift, List.zipWith3, ha, ih', spacingSubst_add_num]

/-- Claim C1: for every function with left halo+padding sizes
`f._size_nodomain.left`, lowering an equation via `lower_exprs` rewrites
every index expression of every access into the raw index with the own
dimension's spacing symbol and its negation replaced by `1`/`-1`, shifted by
exactly `+L` where `L` is that dimension's left halo+padding size.  Stated
for an equation between two accesses whose raw indices contain no nested
accesses (so that the recursive lowering of an index is the identity). -/
theorem lower_exprs_shift_spacing (f g : Func) (es ds : List SExpr)
    (hes : ∀ a ∈ es, retrieveIndexed a = [])
    (hds : ∀ a ∈ ds, retrieveIndexed a = []) :
    lowerExprs [] (.eqn (.indexed g ds) (.indexed f es)) =
      .eqn
        (.indexed g (List.zipWith3
          (fun a d o => SExpr.add (spacingSubst d a) (.num o)) ds g.dims g.sizeLeft))
        (.indexed f (List.zipWith3
          (fun a d o => SExpr.add (spacingSubst d a) (.num o)) es f.dims f.sizeLeft)) := by
  have hG := lowered_indices_eq ds g.dims g.sizeLeft hds
  have hF := lowered_indices_eq es f.dims f.sizeLeft hes
  by_cases hgf : SExpr.indexed g ds = SExpr.indexed f es
  · have hg : g = f := by injection hgf
    have hdse : ds = es := by injection hgf
    subst hg; subst hdse
    simp [lowerExprs, lowerMapper, uxreplace, lookupSE, hG]
  · simp [lowerExprs, lowerMapper, uxreplace, lookupSE, hgf, hG, hF]

/-- Time dimension of the end-to-end example. -/
def dT : Dim := .basic "t"

/-- x dimension of the end-to-end example. -/
def dX : Dim := .basic "x"

/-- y dimension of the end-to-end example. -/
def dY : Dim := .basic "y"

/-- The function `u(t, x, y)` with left halo+padding `2` on `x` and `y`. -/
def uF : Func := ⟨"u", [dT, dX, dY], [0, 2, 2]⟩

/-- Left-hand access indices `u[t+1, x, y]`. -/
def dsEx : List SExpr := [.add (.dimr dT) (.num 1), .dimr dX, .dimr dY]

/-- Right-hand access indices `u[t, x - h_x, y]`. -/
def esEx : List SExpr := [.dimr dT, .add (.dimr dX) (.neg (.sym "h_x")), .dimr dY]

/-- Witness for C1: the lowering theorem applied to the concrete equation
`u[t+1, x, y] = u[t, x - h_x, y]` with halo 2 on `x`. -/
theorem lower_exprs_shift_spacing_witness :
    ((∀ a ∈ esEx, retrieveIndexed a = []) ∧ (∀ a ∈ dsEx, retrieveIndexed a = [])) ∧
    lowerExprs [] (.eqn (.indexed uF dsEx) (.indexed uF esEx)) =
      .eqn
        (.indexed uF (List.zipWith3
          (fun a d o => SExpr.add (spacingSubst d a) (.num o)) dsEx uF.dims uF.sizeLeft))
        (.indexed uF (List.zipWith3
          (fun a d o => SExpr.add (spacingSubst d a) (.num o)) esEx uF.dims uF.sizeLeft)) :=
  ⟨⟨by decide, by decide⟩,
    lower_exprs_shift_spacing uF uF esEx dsEx (by decide) (by decide)⟩

/-- Helper of `filter_ordered`, threading the set of elements already
seen. -/
def filterOrderedGo {α : Type} [DecidableEq α] (seen : List α) : List α → List α
  | [] => []
  | a :: as =>
    if a ∈ seen then filterOrderedGo seen as
    else a :: filterOrderedGo (a :: seen) as

/-- `filter_ordered` from `devito.tools`: remove duplicates while
preserving the order of first occurrences. -/
def filter_ordered {α : Type} [DecidableEq α] (l : List α) : List α :=
  filterOrderedGo [] l

/-- Lexicographic comparison of character lists. -/
def charsLe : List Char → List Char → Bool
  | [], _ => true
  | _ :: _, [] => false
  | c :: cs, d :: ds => if c = d then charsLe cs ds else decide (c.val < d.val)

/-- Lexicographic string comparison (the order sympy's default sort key
induces on same-class symbols, which compare by name). -/
def strLe (a b : String) : Bool := charsLe a.data b.data

/-- Insert a dimension into a name-sorted list. -/
def insertByName (d : Dim) : List Dim → List Dim
  | [] => [d]
  | b :: bs => if strLe d.name b.name then d :: b :: bs else b :: insertByName d bs

/-- Insertion sort of dimensions by name (sympy's default sort key orders
same-class symbols by name). -/
def sortByName : List Dim → List Dim
  | [] => []
  | a :: as => insertByName a (sortByName as)

/-- `filter_sorted` from `devito.tools`: sort and remove duplicates
("enforce determinism" in `dimension_sort`). -/
def filter_sorted (l : List Dim) : List Dim :=
  sortByName (filter_ordered l)

/-- `index.is_integer` for this syntax: dimensions are integer-valued
symbols in devito, literals are integers, and sums/products/negations of
integers are integers; a general symbol or a nested access is not known to
be integer. -/
def SExpr.isIntegerB : SExpr → Bool
  | .dimr _ => true
  | .num _ => true
  | .add a b => a.isIntegerB && b.isIntegerB
  | .mul a b => a.isIntegerB && b.isIntegerB
  | .neg a => a.isIntegerB
  | _ => false

/-- An expression free of dimensions and accesses (a compile-time constant
with respect to the iteration dimensions). -/
def constExpr : SExpr → Bool
  | .dimr _ => false
  | .sym _ => true
  | .num _ => true
  | .add a b => constExpr a && constExpr b
  | .mul a b => constExpr a && constExpr b
  | .neg a => constExpr a
  | .indexed _ _ => false
  | .eqn _ _ => false

/-- The expression is affine in the dimension `d` (constants, `d`, sums,
negations, and products with a constant factor). -/
def affineIn (d : Dim) : SExpr → Bool
  | .dimr d' => d' = d
  | .sym _ => true
  | .num _ => true
  | .add a b => affineIn d a && affineIn d b
  | .mul a b => (constExpr a && affineIn d b) || (affineIn d a && constExpr b)
  | .neg a => affineIn d a
  | .indexed _ _ => false
  | .eqn _ _ => false

/-- Modelled from the spec: the `i.d` attribute of an
AffineIndexAccessFunction (built by the symbolic layer upstream, not part
of this source) — "taking the dimension directly if the index is an affine
function of exactly one dimension"; any other shape raises
`AttributeError` (`none`). -/
def affineDim (e : SExpr) : Option Dim :=
  match filter_ordered (dimAtoms e) with
  | [d] => if affineIn d e then some d else none
  | _ => none

mutual

/-- `handle_indexed` of `dimension_sort`: derive one relation (ordered
dimension tuple) from an indexed access — per index, the affine dimension
if any, else the dimensions of nested accesses, else all dimension atoms
sorted by name; StencilDimensions are dropped from the final relation. -/
def handle_indexed : SExpr → List Dim
  | .indexed _ es => (handleIndices es).filter (fun d => !d.isStencil)
  | _ => []
termination_by e => (sizeOf e, 0)

/-- The relation contributions of an access's index list, in order. -/
def handleIndices : List SExpr → List Dim
  | [] => []
  | i :: rest =>
    (match affineDim i with
     | some d => [d]
     | none =>
       let nested := nestedRelation i
       if nested.isEmpty then filter_sorted (dimAtoms i) else nested)
    ++ handleIndices rest
termination_by l => (sizeOf l, 0)

/-- `flatten(handle_indexed(n) for n in retrieve_indexed(i))`, computed
structurally over the index expression. -/
def nestedRelation : SExpr → List Dim
  | .indexed f es => handle_indexed (.indexed f es)
  | .add a b => nestedRelation a ++ nestedRelation b
  | .mul a b => nestedRelation a ++ nestedRelation b
  | .neg a => nestedRelation a
  | .eqn a b => nestedRelation a ++ nestedRelation b
  | _ => []
termination_by e => (sizeOf e, 1)

end

/-- An equation as consumed by `dimension_sort`: the symbolic relational
`expr`, its `implicit_dims` tuple, and whether the implicit dims are an
`IgnoreDimSort` (equations opting out of sorting). -/
structure DEquation where
  expr : SExpr
  implicitDims : List Dim
  ignoreSort : Bool
deriving DecidableEq

/-- The relation set of `dimension_sort`: one relation per outermost
indexed access (none when the equation opts out), plus the implicit
dimensions as one additional relation; duplicates removed (Python set). -/
def relationsOf (e : DEquation) : List (List Dim) :=
  let rels := if e.ignoreSort then [] else (retrieveIndexed e.expr).map handle_indexed
  filter_ordered (rels ++ [e.implicitDims])

/-- The `extra` set of `dimension_sort`: every dimension atom of the
expression plus, for every access at any depth, the function dimensions
whose index is a compile-time integer (`i.indices[d].is_integer`); sorted
and deduplicated for determinism. -/
def extraOf (e : DEquation) : List Dim :=
  let ints := (retrieveIndexedDeep e.expr).flatMap (fun i =>
    match i with
    | .indexed f es => ((f.dims.zip es).filter (fun p => p.2.isIntegerB)).map Prod.fst
    | _ => [])
  filter_sorted (dimAtoms e.expr ++ ints)

/-- The implicit parent-before-child relations:
`{(d.parent, d) for d in extra if d.is_Derived and not d.indirect}`. -/
def parentRelations (extra : List Dim) : List (List Dim) :=
  (extra.filter (fun d => d.isDerived && !d.indirectFlag)).filterMap
    (fun d => d.parentD.map (fun p => [p, d]))

/-- The relation expansion of `dimension_sort`: within each relation,
insert a dimension's distinct backing index immediately before it (only
when the index has a different name, to avoid dropping conditionals named
like their parent), removing duplicates. -/
def expandRelation (rel : List Dim) : List Dim :=
  filter_ordered (rel.flatMap (fun d =>
    if d.index.name = d.name then [d] else [d.index, d]))

/-- The consecutive-pair ordering constraints of one relation. -/
def edgesOfRel : List Dim → List (Dim × Dim)
  | a :: b :: rest => (a, b) :: edgesOfRel (b :: rest)
  | _ => []

/-- A node is ready (may be emitted next) when no constraint orders a
still-remaining node before it. -/
def ready (remaining : List Dim) (edges : List (Dim × Dim)) (d : Dim) : Bool :=
  edges.all (fun p => !(decide (p.2 = d) && decide (p.1 ∈ remaining)))

/-- Kahn's algorithm with ties resolved by discovery order: repeatedly
emit the first ready node of the remaining list; a step with no ready node
is a cycle and fails. -/
def kahn : Nat → List Dim → List (Dim × Dim) → Option (List Dim)
  | 0, remaining, _ => if remaining.isEmpty then some [] else none
  | fuel + 1, remaining, edges =>
    match remaining.find? (ready remaining edges) with
    | none => if remaining.isEmpty then some [] else none
    | some d => (kahn fuel (remaining.erase d) edges).map (fun out => d :: out)

/-- Modelled from the spec: `Ordering(extra, relations=implicit_relations,
mode='partial')` from `devito.tools` (not part of this source) — a partial
topological sort over the item list plus every dimension mentioned by a
relation, respecting each relation's consecutive-pair constraints,
resolving ties by discovery order, and failing loudly on a genuine
cycle. -/
def ordering (items : List Dim) (rels : List (List Dim)) : Option (List Dim) :=
  let nodes := filter_ordered (items ++ rels.flatMap id)
  let edges := filter_ordered (rels.flatMap edgesOfRel)
  kahn nodes.length nodes edges

/-- `dimension_sort(expr)`: topologically sort the dimensions referenced
by one equation. -/
def dimension_sort (e : DEquation) : Option (List Dim) :=
  let relations := relationsOf e
  let extra := extraOf e
  let implicitRels := filter_ordered (parentRelations extra ++ relations.map expandRelation)
  ordering extra implicitRels

/-- Membership under dedup-with-seen-set. -/
theorem mem_filterOrderedGo {α : Type} [DecidableEq α] :
    ∀ (l seen : List α) (x : α),
      x ∈ filterOrderedGo seen l ↔ (x ∈ l ∧ x ∉ seen) := by
  intro l
  induction l with
  | nil => intro seen x; simp [filterOrderedGo]
  | cons a as ih =>
    intro seen x
    simp only [filterOrderedGo]
    split
    · next hmem =>
      rw [ih]
      constructor
      · rintro ⟨hx, hs⟩; exact ⟨List.mem_cons_of_mem a hx, hs⟩
      · rintro ⟨hx, hs⟩
        rcases List.mem_cons.mp hx with rfl | hx'
        · exact absurd hmem hs
        · exact ⟨hx', hs⟩
    · next hmem =>
      rw [List.mem_cons, ih]
      constructor
      · rintro (rfl | ⟨hx, hs⟩)
        · exact ⟨List.mem_cons_self _ _, hmem⟩
        · exact ⟨List.mem_cons_of_mem a hx,
            fun hc => hs (List.mem_cons_of_mem a hc)⟩
      · rintro ⟨hx, hs⟩
        by_cases hxa : x = a
        · exact Or.inl hxa
        · rcases List.mem_cons.mp hx with rfl | hx'
          · exact Or.inl rfl
          · exact Or.inr ⟨hx', fun hc => by
              rcases List.mem_cons.mp hc with h | h
              · exact hxa h
              · exact hs h⟩

/-- `filter_ordered` preserves membership. -/
theorem mem_filter_ordered {α : Type} [DecidableEq α] (x : α) (l : List α) :
    x ∈ filter_ordered l ↔ x ∈ l := by
  simp [filter_ordered, mem_filterOrderedGo]

/-- Insertion preserves membership. -/
theorem mem_insertByName (d x : Dim) (l : List Dim) :
    x ∈ insertByName d l ↔ x = d ∨ x ∈ l := by
  induction l with
  | nil => simp [insertByName]
  | cons b bs ih =>
    simp only [insertByName]
    split
    · simp [List.mem_cons]
    · rw [List.mem_cons, ih, List.mem_cons]
      tauto

/-- Sorting by name preserves membership. -/
theorem mem_sortByName (x : Dim) (l : List Dim) : x ∈ sortByName l ↔ x ∈ l := by
  induction l with
  | nil => simp [sortByName]
  | cons a as ih => simp [sortByName, mem_insertByName, ih]

/-- `filter_sorted` preserves membership. -/
theorem mem_filter_sorted (x : Dim) (l : List Dim) :
    x ∈ filter_sorted l ↔ x ∈ l := by
  simp [filter_sorted, mem_sortByName, mem_filter_ordered]

/-- A derived dimension is never equal to its own parent (it contains it
as a strict subterm). -/
theorem Dim.derived_ne_parent (n : String) (p : Dim) (i : Bool) :
    Dim.derived n p i ≠ p := by
  intro h
  have hs : sizeOf p < sizeOf (Dim.derived n p i) := by
    simp only [Dim.derived.sizeOf_spec]
    omega
  rw [h] at hs
  exact Nat.lt_irrefl _ hs

/-- Everything remaining when Kahn's algorithm starts appears in its
output. -/
theorem kahn_mem :
    ∀ (fuel : Nat) (remaining : List Dim) (edges : List (Dim × Dim))
      (out : List Dim), kahn fuel remaining edges = some out →
      ∀ x ∈ remaining, x ∈ out := by
  intro fuel
  induction fuel with
  | zero =>
    intro remaining edges out h x hx
    simp only [kahn] at h
    split at h
    · next hemp =>
      rw [List.isEmpty_iff] at hemp
      subst hemp
      simp at hx
    · cases h
  | succ n ih =>
    intro remaining edges out h x hx
    cases hf : remaining.find? (ready remaining edges) with
    | none =>
      simp only [kahn, hf] at h
      split at h
      · next hemp =>
        rw [List.isEmpty_iff] at hemp
        subst hemp
        simp at hx
      · cases h
    | some d =>
      simp only [kahn, hf] at h
      rcases Option.map_eq_some'.mp h with ⟨out', hk, rfl⟩
      by_cases hxd : x = d
      · subst hxd; exact List.mem_cons_self _ _
      · have hx' : x ∈ remaining.erase d := (List.mem_erase_of_ne hxd).mpr hx
        exact List.mem_cons_of_mem d (ih _ edges out' hk x hx')

/-- If Kahn's algorithm succeeds, every edge between two remaining nodes
is respected: the source appears before the target in the output. -/
theorem kahn_before :
    ∀ (fuel : Nat) (remaining : List Dim) (edges : List (Dim × Dim))
      (out : List Dim) (a b : Dim), kahn fuel remaining edges = some out →
      (a, b) ∈ edges → a ≠ b → a ∈ remaining → b ∈ remaining →
      List.Sublist [a, b] out := by
  intro fuel
  induction fuel with
  | zero =>
    intro r e out a b h he hab ha hb
    simp only [kahn] at h
    split at h
    · next hemp =>
      rw [List.isEmpty_iff] at hemp
      subst hemp
      simp at ha
    · cases h
  | succ n ih =>
    intro r e out a b h he hab ha hb
    cases hf : r.find? (ready r e) with
    | none =>
      simp only [kahn, hf] at h
      split at h
      · next hemp =>
        rw [List.isEmpty_iff] at hemp
        subst hemp
        simp at ha
      · cases h
    | some d =>
      simp only [kahn, hf] at h
      rcases Option.map_eq_some'.mp h with ⟨out', hk, rfl⟩
      have hready : ready r e d = true := List.find?_some hf
      by_cases hdb : d = b
      · exfalso
        subst hdb
        have hc := List.all_eq_true.mp hready (a, d) he
        simp only [ready, Bool.not_eq_true', Bool.and_eq_false_iff,
          decide_eq_false_iff_not, decide_eq_true_eq] at hc
        rcases hc with hc | hc
        · exact hc trivial
        · exact hc ha
      · by_cases hda : d = a
        · subst hda
          have hb' : b ∈ r.erase d := (List.mem_erase_of_ne (Ne.symm hdb)).mpr hb
          have hbo : b ∈ out' := kahn_mem n _ e out' hk b hb'
          exact List.Sublist.cons₂ d (List.singleton_sublist.mpr hbo)
        · have ha' : a ∈ r.erase d := (List.mem_erase_of_ne (Ne.symm hda)).mpr ha
          have hb' : b ∈ r.erase d := (List.mem_erase_of_ne (Ne.symm hdb)).mpr hb
          exact List.Sublist.cons d (ih (r.erase d) e out' a b hk he hab ha' hb')

/-- Claim C2 (amended): `dimension_sort` is deterministic — it is a pure
function of its equation, so equal inputs give equal outputs definitionally
— and every successful sort places the parent of every NON-INDIRECT
derived dimension present in the equation before that dimension.  The
claim's unrestricted version ("every derived dimension") fails for
indirect derived dimensions, for which line 72 of `algorithms.py`
deliberately builds no parent edge (see the counterexample theorem). -/
theorem dimension_sort_parent_before (e : DEquation) (out : List Dim)
    (n : String) (p : Dim)
    (hmem : Dim.derived n p false ∈ extraOf e)
    (hout : dimension_sort e = some out) :
    List.Sublist [p, Dim.derived n p false] out := by
  simp only [dimension_sort, ordering] at hout
  set d := Dim.derived n p false with hd
  set rels := filter_ordered
    (parentRelations (extraOf e) ++ (relationsOf e).map expandRelation) with hrels
  set nodes := filter_ordered (extraOf e ++ rels.flatMap id) with hnodes
  set edges := filter_ordered (rels.flatMap edgesOfRel) with hedges
  have hreld : [p, d] ∈ parentRelations (extraOf e) := by
    simp only [parentRelations, List.mem_filterMap, List.mem_filter]
    refine ⟨d, ⟨hmem, ?_⟩, ?_⟩
    · simp [hd, Dim.isDerived, Dim.indirectFlag]
    · simp [hd, Dim.parentD]
  have hrelmem : [p, d] ∈ rels := by
    rw [hrels, mem_filter_ordered]
    exact List.mem_append_left _ hreld
  have hedge : (p, d) ∈ edges := by
    rw [hedges, mem_filter_ordered]
    exact List.mem_flatMap.mpr ⟨[p, d], hrelmem, by simp [edgesOfRel]⟩
  have hpnode : p ∈ nodes := by
    rw [hnodes, mem_filter_ordered]
    exact List.mem_append_right _ (List.mem_flatMap.mpr ⟨[p, d], hrelmem, by simp⟩)
  have hdnode : d ∈ nodes := by
    rw [hnodes, mem_filter_ordered]
    exact List.mem_append_left _ hmem
  have hne : p ≠ d := Ne.symm (Dim.derived_ne_parent n p false)
  exact kahn_before nodes.length nodes edges out p d hout hedge hne hpnode hdnode

/-- Parent dimension `z` of the indirect counterexample. -/
def dZ2 : Dim := .basic "z"

/-- An indirect derived dimension named `a` with parent `z`. -/
def dA2 : Dim := .derived "a" dZ2 true

/-- An equation mentioning the indirect derived dimension and its parent
(and nothing else). -/
def eqC2 : DEquation := ⟨.add (.dimr dA2) (.dimr dZ2), [], false⟩

/-- Counterexample to claim C2 as stated: the indirect derived dimension
`a` (with parent `z`) is present in the equation, the sort succeeds, yet
its output places the child before the parent, because no parent edge is
built for indirect derived dimensions. -/
theorem dimension_sort_parent_counterexample :
    dA2.isDerived = true ∧ dA2.parentD = some dZ2 ∧ dA2 ∈ extraOf eqC2 ∧
    dimension_sort eqC2 = some [dA2, dZ2] ∧
    ¬ List.Sublist [dZ2, dA2] [dA2, dZ2] := by
  refine ⟨rfl, rfl, by decide, by decide, by decide⟩

/-- Parent dimension `x` of the witness equation. -/
def dXc : Dim := .basic "x"

/-- A non-indirect SubDimension-like derived dimension `xi` of `x`. -/
def dXi : Dim := .derived "xi" dXc false

/-- Witness equation mentioning `xi` and `x`. -/
def eqC2w : DEquation := ⟨.add (.dimr dXi) (.dimr dXc), [], false⟩

/-- Witness for the amended C2: on a concrete equation containing the
derived dimension `xi` with parent `x`, the sort succeeds and the theorem
places `x` before `xi`. -/
theorem dimension_sort_parent_before_witness :
    (Dim.derived "xi" dXc false ∈ extraOf eqC2w ∧
      dimension_sort eqC2w = some [dXc, dXi]) ∧
    List.Sublist [dXc, Dim.derived "xi" dXc false] [dXc, dXi] :=
  ⟨⟨by decide, by decide⟩,
    dimension_sort_parent_before eqC2w [dXc, dXi] "xi" dXc (by decide) (by decide)⟩

end Spec

namespace Spec.Conc

/-- Symbolic bound expressions of a SubDimension (`symbolic_min` /
`symbolic_max`): thickness-token and extreme symbols combined with
arithmetic. -/
inductive TExpr where
  | sym (s : String)
  | num (n : Int)
  | add (a b : TExpr)
  | sub (a b : TExpr)
deriving DecidableEq

/-- `expr.subs(token_mapping)` where the mapping renames symbols (the
thickness-token substitution `mM.subs(tkns_subs)`). -/
def TExpr.substS (m : List (String × String)) : TExpr → TExpr
  | .sym s => .sym ((m.lookup s).getD s)
  | .num n => .num n
  | .add a b => .add (a.substS m) (b.substS m)
  | .sub a b => .sub (a.substS m) (b.substS m)

/-- The dimension kinds dispatched on by `_concretize_subdims`: plain
dimensions (the default `pass` handler), `SubDimension`s — name, parent,
left/right thickness token names (`d.tkns`), symbolic min/max bounds and
the user thickness values (`d._thickness_map`) — and
`ConditionalDimension`s — name, parent, and the dimensions among the
condition's free symbols (an absent condition is the empty list, over
which the handler's iteration and `any(...)` are vacuous, as for `None`).
`MultiSubDimension` is outside this modelled fragment (its handler also
unconditionally mints fresh thickness tokens, so it can only add further
change on re-application). -/
inductive CDim where
  | basic (name : String)
  | sub (name : String) (parent : CDim) (ltkn rtkn : String)
        (symMin symMax : TExpr) (thkL thkR : Option Int)
  | cond (name : String) (parent : CDim) (condSyms : List CDim)

mutual

/-- Boolean structural equality on dimensions. -/
def CDim.beq : CDim → CDim → Bool
  | .basic a, .basic b => a = b
  | .sub n p lt rt mn mx tl tr, .sub n' p' lt' rt' mn' mx' tl' tr' =>
    n = n' && CDim.beq p p' && lt = lt' && rt = rt' && mn = mn' && mx = mx' &&
      tl = tl' && tr = tr'
  | .cond n p cs, .cond n' p' cs' => n = n' && CDim.beq p p' && CDim.beqList cs cs'
  | _, _ => false
termination_by structural a => a

/-- Boolean structural equality on dimension lists. -/
def CDim.beqList : List CDim → List CDim → Bool
  | [], [] => true
  | a :: as, b :: bs => CDim.beq a b && CDim.beqList as bs
  | _, _ => false
termination_by structural as => as

end

mutual

theorem CDim.ceq_of_cbeq : ∀ {a b : CDim}, CDim.beq a b = true → a = b
  | .basic _, .basic _, h => by
    simp only [CDim.beq, decide_eq_true_eq] at h; rw [h]
  | .sub _ p _ _ _ _ _ _, .sub _ p' _ _ _ _ _ _, h => by
    simp only [CDim.beq, Bool.and_eq_true, decide_eq_true_eq] at h
    obtain ⟨⟨⟨⟨⟨⟨⟨h1, h2⟩, h3⟩, h4⟩, h5⟩, h6⟩, h7⟩, h8⟩ := h
    rw [h1, CDim.ceq_of_cbeq h2, h3, h4, h5, h6, h7, h8]
  | .cond _ p cs, .cond _ p' cs', h => by
    simp only [CDim.beq, Bool.and_eq_true, decide_eq_true_eq] at h
    obtain ⟨⟨h1, h2⟩, h3⟩ := h
    rw [h1, CDim.ceq_of_cbeq h2, CDim.ceqList_of_cbeqList h3]

theorem CDim.ceqList_of_cbeqList : ∀ {as bs : List CDim},
    CDim.beqList as bs = true → as = bs
  | [], [], _ => rfl
  | a :: as, b :: bs, h => by
    simp only [CDim.beqList, Bool.and_eq_true] at h
    rw [CDim.ceq_of_cbeq h.1, CDim.ceqList_of_cbeqList h.2]

end

mutual

theorem CDim.cbeq_refl : ∀ (a : CDim), CDim.beq a a = true
  | .basic _ => by simp [CDim.beq]
  | .sub _ p _ _ _ _ _ _ => by simp [CDim.beq, CDim.cbeq_refl p]
  | .cond _ p cs => by simp [CDim.beq, CDim.cbeq_refl p, CDim.cbeqList_refl cs]

theorem CDim.cbeqList_refl : ∀ (as : List CDim), CDim.beqList as as = true
  | [] => rfl
  | a :: as => by simp [CDim.beqList, CDim.cbeq_refl a, CDim.cbeqList_refl as]

end

instance : DecidableEq CDim := fun a b =>
  if h : CDim.beq a b = true then .isTrue (CDim.ceq_of_cbeq h)
  else .isFalse (fun he => h (he ▸ CDim.cbeq_refl a))

/-- Modelled from the spec: the per-compilation symbol registry
(`sregistry`, external to this source) minting collision-free fresh names;
`make_name(prefix=p)` appends a per-prefix counter to the prefix. -/
structure SReg where
  counters : List (String × Nat)
deriving DecidableEq

/-- `sregistry.make_name(prefix=pfx)`: the fresh name and updated
registry. -/
def SReg.makeName (r : SReg) (pfx : String) : String × SReg :=
  let k := (r.counters.lookup pfx).getD 0
  (pfx ++ toString k, ⟨(pfx, k + 1) :: r.counters.filter (fun p => p.1 ≠ pfx)⟩)

mutual

/-- `_concretize_subdims` on one dimension: the default handler passes;
a `SubDimension` not yet in the mapper mints fresh left/right
thickness-token names, substitutes them into its symbolic bounds, and
records the rebuilt dimension; a `ConditionalDimension` not yet in the
mapper first concretizes its parent and the dimensions of its condition,
then rebuilds only if the parent or the condition picked up a
replacement. -/
def concD (d : CDim) (mapper : List (CDim × CDim)) (reg : SReg) :
    List (CDim × CDim) × SReg :=
  match d with
  | .basic _ => (mapper, reg)
  | .sub n p lt rt mn mx tl tr =>
    if (mapper.lookup (CDim.sub n p lt rt mn mx tl tr)).isSome then (mapper, reg)
    else
      let r1 := reg.makeName lt
      let r2 := r1.2.makeName rt
      let sbs := [(lt, r1.1), (rt, r2.1)]
      (mapper ++ [(CDim.sub n p lt rt mn mx tl tr,
        CDim.sub n p r1.1 r2.1 (mn.substS sbs) (mx.substS sbs) tl tr)], r2.2)
  | .cond n p cs =>
    if (mapper.lookup (CDim.cond n p cs)).isSome then (mapper, reg)
    else
      let s1 := concD p mapper reg
      let s2 := concDList cs s1.1 s1.2
      let condNeeds := cs.any (fun v => (s2.1.lookup v).isSome)
      if (s2.1.lookup p).isSome || condNeeds then
        (s2.1 ++ [(CDim.cond n p cs,
          CDim.cond n ((s2.1.lookup p).getD p)
            (if condNeeds then cs.map (fun v => (s2.1.lookup v).getD v) else cs))],
          s2.2)
      else s2
termination_by structural d

/-- `_concretize_subdims` folded over a list of dimensions. -/
def concDList (ds : List CDim) (mapper : List (CDim × CDim)) (reg : SReg) :
    List (CDim × CDim) × SReg :=
  match ds with
  | [] => (mapper, reg)
  | a :: as =>
    let s := concD a mapper reg
    concDList as s.1 s.2
termination_by structural ds

end

/-- An equation as traversed by the `Eq` handler: the dimensions among its
free symbols, and its implicit dimensions ("Subdimensions can be hiding in
implicit dims"). -/
structure CEq where
  freeSyms : List CDim
  implicitDims : List CDim
deriving DecidableEq

/-- The `Eq` handler of `_concretize_subdims`: recurse over the free
symbols, then over the implicit dimensions. -/
def concEq (e : CEq) (mapper : List (CDim × CDim)) (reg : SReg) :
    List (CDim × CDim) × SReg :=
  let s := concDList e.freeSyms mapper reg
  concDList e.implicitDims s.1 s.2

/-- The list handler of `_concretize_subdims` applied to the input
equations. -/
def concEqs (es : List CEq) (mapper : List (CDim × CDim)) (reg : SReg) :
    List (CDim × CDim) × SReg :=
  match es with
  | [] => (mapper, reg)
  | e :: rest =>
    let s := concEq e mapper reg
    concEqs rest s.1 s.2

/-- Replace a dimension by its mapper image, if any (`uxreplace` replaces
exact symbol matches only: a devito dimension is a symbol, so the mapping
does not descend into its attributes). -/
def replD (m : List (CDim × CDim)) (d : CDim) : CDim := (m.lookup d).getD d

/-- `uxreplace(e, mapper)` on an equation of this fragment. -/
def uxreplaceCEq (m : List (CDim × CDim)) (e : CEq) : CEq :=
  ⟨e.freeSyms.map (replD m), e.implicitDims.map (replD m)⟩

/-- `concretize_subdims(exprs)`: collect the substitution mapper over all
equations, return the input unchanged if it is empty, otherwise apply it
to every equation in one combined pass.  (The input equations of this
fragment contain no `Array`s defined on SubDimensions, so the
array-rebuilding step in lines 178–188 contributes nothing.) -/
def concretize_subdims (exprs : List CEq) (reg : SReg) : List CEq × SReg :=
  let s := concEqs exprs [] reg
  if s.1.isEmpty then (exprs, s.2)
  else (exprs.map (uxreplaceCEq s.1), s.2)

/-- The user-defined SubDimension `xi` of parent `x` with thickness 2 on
both sides: bounds `x_m + xi_ltkn` / `x_M - xi_rtkn`. -/
def xiC : CDim :=
  .sub "xi" (.basic "x") "xi_ltkn" "xi_rtkn"
    (.add (.sym "x_m") (.sym "xi_ltkn")) (.sub (.sym "x_M") (.sym "xi_rtkn"))
    (some 2) (some 2)

/-- One equation whose free symbols contain the SubDimension `xi`. -/
def exprsC5 : List CEq := [⟨[xiC], []⟩]

/-- A fresh per-compilation registry. -/
def regC5 : SReg := ⟨[]⟩

/-- Counterexample to claim C5 as stated: `concretize_subdims` does NOT
reach a fixed point — applied a second time to its own output (with the
compilation's registry threaded through), it mints a fresh pair of
thickness-token names for the already-concretized SubDimension and changes
the expressions again. -/
theorem concretize_subdims_not_fixed_point :
    (Conc.concretize_subdims (Conc.concretize_subdims exprsC5 regC5).1
        (Conc.concretize_subdims exprsC5 regC5).2).1 ≠
      (Conc.concretize_subdims exprsC5 regC5).1 := by decide

/-- A dimension the dispatch's default (`pass`) handler applies to. -/
def allBasicD : CDim → Bool
  | .basic _ => true
  | _ => false

/-- An equation mentioning only plain dimensions. -/
def CEq.allBasic (e : CEq) : Bool :=
  e.freeSyms.all allBasicD && e.implicitDims.all allBasicD

/-- Equations mentioning only plain dimensions. -/
def allBasicEqs (es : List CEq) : Bool := es.all CEq.allBasic

/-- The default handler contributes nothing to the mapper. -/
theorem concD_basic (d : CDim) (h : allBasicD d = true)
    (m : List (CDim × CDim)) (r : SReg) : concD d m r = (m, r) := by
  cases d with
  | basic n => simp [concD]
  | sub n p lt rt mn mx tl tr => simp [allBasicD] at h
  | cond n p cs => simp [allBasicD] at h

/-- Folding the default handler contributes nothing. -/
theorem concDList_basic (ds : List CDim) (h : ds.all allBasicD = true)
    (m : List (CDim × CDim)) (r : SReg) : concDList ds m r = (m, r) := by
  induction ds with
  | nil => simp [concDList]
  | cons a as ih =>
    simp only [List.all_cons, Bool.and_eq_true] at h
    simp [concDList, concD_basic a h.1, ih h.2]

/-- An all-plain equation contributes nothing to the mapper. -/
theorem concEq_basic (e : CEq) (h : e.allBasic = true)
    (m : List (CDim × CDim)) (r : SReg) : concEq e m r = (m, r) := by
  simp only [CEq.allBasic, Bool.and_eq_true] at h
  simp [concEq, concDList_basic e.freeSyms h.1, concDList_basic e.implicitDims h.2]

/-- All-plain equations leave the mapper empty. -/
theorem concEqs_basic (es : List CEq) (h : allBasicEqs es = true)
    (m : List (CDim × CDim)) (r : SReg) : concEqs es m r = (m, r) := by
  induction es with
  | nil => simp [concEqs]
  | cons e rest ih =>
    simp only [allBasicEqs, List.all_cons, Bool.and_eq_true] at h
    simp [concEqs, concEq_basic e h.1]
    exact ih h.2

/-- Claim C5 (amended): `concretize_subdims` returns its input unchanged —
and is therefore a fixed point under re-application — exactly in the
empty-mapper case, e.g. whenever the expressions contain no user-defined
SubDimensions (all their dimensions take the default `pass` handler).
When a SubDimension is present, the handler unconditionally mints fresh
thickness-token names, so a second application changes the output again
(see the counterexample theorem). -/
theorem concretize_subdims_fixed_point_no_subdims (es : List CEq) (reg : SReg)
    (h : allBasicEqs es = true) :
    Conc.concretize_subdims es reg = (es, reg) ∧
    (Conc.concretize_subdims (Conc.concretize_subdims es reg).1
        (Conc.concretize_subdims es reg).2).1 =
      (Conc.concretize_subdims es reg).1 := by
  have h1 : Conc.concretize_subdims es reg = (es, reg) := by
    simp [Conc.concretize_subdims, concEqs_basic es h]
  refine ⟨h1, ?_⟩
  rw [h1]
  simp only
  rw [h1]

/-- A concrete all-plain input for the amended C5. -/
def esC5w : List CEq := [⟨[.basic "x", .basic "t"], [.basic "t"]⟩]

/-- Witness for the amended C5 at a concrete input with only plain
dimensions. -/
theorem concretize_subdims_fixed_point_witness :
    allBasicEqs esC5w = true ∧
    (Conc.concretize_subdims esC5w ⟨[]⟩ = (esC5w, ⟨[]⟩) ∧
      (Conc.concretize_subdims (Conc.concretize_subdims esC5w ⟨[]⟩).1
          (Conc.concretize_subdims esC5w ⟨[]⟩).2).1 =
        (Conc.concretize_subdims esC5w ⟨[]⟩).1) :=
  ⟨by decide, concretize_subdims_fixed_point_no_subdims esC5w ⟨[]⟩ (by decide)⟩

end Spec.Conc

deriving instance DecidableEq for Except

namespace Spec.Gpu

/-- Atomic Python option values: `None`, booleans, integers, strings, and
the function objects a user may list under `gpu-fit` (a composite
tensor-like function carries the names of its constituent values). -/
inductive PyAtom where
  | noneA
  | boolA (b : Bool)
  | intA (n : Int)
  | strA (s : String)
  | fnA (name : String) (isTensor : Bool) (vals : List String)
deriving DecidableEq

/-- Python option values as consumed/produced by `_normalize_kwargs`:
atoms, `np.inf`, tuples of atoms, and the opaque `ParTile(...)` object
(capturing the raw, sparse and reduce arguments; the constant default tile
`(32, 4, 4)` is a fixed argument at the call site). -/
inductive PyVal where
  | atom (a : PyAtom)
  | inf
  | tuple (xs : List PyAtom)
  | parTile (raw sparse red : PyVal)
deriving DecidableEq

/-- An options mapping (Python dict with string keys, in insertion
order). -/
abbrev Opts := List (String × PyVal)

/-- First-match association lookup (`oo[k]` / `oo.get(k)`). -/
def lookupOpt (oo : Opts) (k : String) : Option PyVal :=
  match oo with
  | [] => none
  | (k', v) :: rest => if k' = k then some v else lookupOpt rest k

/-- `k in oo`. -/
def hasKey (oo : Opts) (k : String) : Bool := (lookupOpt oo k).isSome

/-- Removal of a key (the state change of `oo.pop(k, ...)`). -/
def eraseKey (oo : Opts) (k : String) : Opts :=
  List.filter (fun p => p.1 ≠ k) oo

/-- `oo.pop(k, dflt)`: the value (or default) and the mapping without the
key. -/
def pop (oo : Opts) (k : String) (dflt : PyVal) : PyVal × Opts :=
  ((lookupOpt oo k).getD dflt, eraseKey oo k)

/-- `oo.setdefault(k, v)`. -/
def setdefault (oo : Opts) (k : String) (v : PyVal) : Opts :=
  if hasKey oo k then oo else oo ++ [(k, v)]

/-- `oo[k] = v` (replace in place, else append). -/
def setVal (oo : Opts) (k : String) (v : PyVal) : Opts :=
  if hasKey oo k then List.map (fun p => if p.1 = k then (k, v) else p) oo
  else oo ++ [(k, v)]

/-- Python truthiness of an option value. -/
def truthy : PyVal → Bool
  | .atom .noneA => false
  | .atom (.boolA b) => b
  | .atom (.intA n) => decide (n ≠ 0)
  | .atom (.strA s) => decide (s ≠ "")
  | .atom (.fnA _ _ _) => true
  | .inf => true
  | .tuple xs => decide (xs ≠ [])
  | .parTile _ _ _ => true

/-- The errors raised by options normalization: `InvalidOperator` (the
spec's ConfigurationError) with its message, and a missing mandatory key
(`oo.pop('mpi')` with no default). -/
inductive Err where
  | invalidOperator (msg : String)
  | keyError (k : String)
deriving DecidableEq

/-- Class-level defaults consumed by `_normalize_kwargs`.  `GPU_FIT =
'all-fallback'` and `BLOCK_LEVELS = 0` are set by `DeviceOperatorMixin` in
this source; the remaining constants live on `CoreOperator`, outside this
source, and are parameters of the model — except `BLOCK_EAGER`, whose
device default is Modelled from the spec: "lazy is default", hence eager
off by default. -/
structure Cls where
  CSE_MIN_COST : PyVal
  CIRE_MINGAIN : PyVal
  CIRE_SCHEDULE : PyVal
  PAR_CHUNK_NONAFFINE : PyVal
  DIST_DROP_UNWRITTEN : PyVal
  EXPAND : PyVal
  DERIV_SCHEDULE : PyVal
  MAPIFY_REDUCE : PyVal
  INDEX_MODE : PyVal
  ERRCTL : PyVal
  BLOCK_EAGER : PyVal := .atom (.boolA false)
  BLOCK_RELAX : PyVal := .atom (.boolA false)
  BLOCK_LEVELS : PyVal := .atom (.intA 0)
  GPU_FIT : PyVal := .atom (.strA "all-fallback")
deriving DecidableEq

/-- `as_tuple(v)` for the values this fragment manipulates: a tuple is
itself, `None` maps to the empty tuple, an atom to a singleton. -/
def as_tuple (v : PyVal) : List PyAtom :=
  match v with
  | .tuple xs => xs
  | .atom .noneA => []
  | .atom a => [a]
  | _ => []

/-- `as_tuple` repackaged as a value. -/
def asTupleV (v : PyVal) : PyVal := .tuple (as_tuple v)

/-- `f.values() if f.is_AbstractTensor else [f]` for one entry of a
user-supplied gpu-fit tuple. -/
def flattenFit (a : PyAtom) : List PyAtom :=
  match a with
  | .fnA _ true vals => vals.map (fun n => PyAtom.fnA n false [])
  | x => [x]

/-- `_normalize_gpu_fit(oo, **kwargs)`: a user-supplied `gpu-fit` is
flattened (tensor-like entries are replaced by their constituent values,
as a set — here deduplicated in first-seen order; Python's set order is
unspecified and never observed by the claims); with no user value,
"nothing fits" `(None,)` when the requested mode names tasking/streaming,
else the class default (everything fits via 'all-fallback'). -/
def normalize_gpu_fit (cls : Cls) (mode : List String) (oo : Opts) :
    PyVal × Opts :=
  match lookupOpt oo "gpu-fit" with
  | some v =>
    (.tuple (Spec.filter_ordered ((as_tuple v).flatMap flattenFit)),
      eraseKey oo "gpu-fit")
  | none =>
    if mode.contains "tasking" || mode.contains "streaming"
    then (.tuple [.noneA], oo)
    else (asTupleV cls.GPU_FIT, oo)

/-- The message of the unrecognized-options error, naming the offending
keys. -/
def unsupportedMsg (ks : List String) : String :=
  "Unsupported optimization options: [" ++ String.intercalate ", " ks ++ "]"

/-- Sequential execution of a list of `oo.pop(k, d)` calls: returns the
popped `(key, value)` pairs, in order, and the final mapping state.  This
is exactly the pop sequence of `_normalize_kwargs`; the Python locals
holding each popped value become the keyed entries of the returned
list. -/
def popMany (oo : Opts) : List (String × PyVal) → List (String × PyVal) × Opts
  | [] => ([], oo)
  | s :: rest =>
    let p := pop oo s.1 s.2
    let r := popMany p.2 rest
    ((s.1, p.1) :: r.1, r.2)

/-- The value popped for `k` (present for every key of the executed spec
list, so the default is never observed). -/
def vOf (l : List (String × PyVal)) (k : String) : PyVal :=
  (lookupOpt l k).getD (.atom .noneA)

/-- The pops of `_normalize_kwargs` before `blocklazy`, in source order
with their source defaults. -/
def popSpecsA (cls : Cls) : List (String × PyVal) :=
  [("buf-async-degree", .atom .noneA), ("fuse-tasks", .atom (.boolA false)),
   ("cse-min-cost", cls.CSE_MIN_COST), ("blockinner", .atom (.boolA true)),
   ("blocklevels", cls.BLOCK_LEVELS), ("blockeager", cls.BLOCK_EAGER)]

/-- The pops between `blocklazy` and `_normalize_gpu_fit`, in source
order with their source defaults. -/
def popSpecsB (cls : Cls) : List (String × PyVal) :=
  [("blockrelax", cls.BLOCK_RELAX), ("skewing", .atom (.boolA false)),
   ("cire-maxpar", .atom (.boolA true)), ("cire-ftemps", .atom (.boolA false)),
   ("cire-mingain", cls.CIRE_MINGAIN), ("cire-schedule", cls.CIRE_SCHEDULE),
   ("par-tile", .atom (.boolA false)), ("par-tile-sparse", .atom .noneA),
   ("par-tile-reduce", .atom .noneA),
   ("par-chunk-nonaffine", cls.PAR_CHUNK_NONAFFINE),
   ("par-disabled", .atom (.boolA true))]

/-- The pops after `_normalize_gpu_fit`, in source order with their
source defaults. -/
def popSpecsC (cls : Cls) : List (String × PyVal) :=
  [("gpu-create", .tuple []), ("dist-drop-unwritten", cls.DIST_DROP_UNWRITTEN),
   ("expand", cls.EXPAND), ("deriv-schedule", cls.DERIV_SCHEDULE),
   ("deriv-unroll", .atom (.boolA false)), ("opt-comms", .atom (.boolA true)),
   ("linearize", .atom (.boolA false)), ("mapify-reduce", cls.MAPIFY_REDUCE),
   ("index-mode", cls.INDEX_MODE), ("place-transfers", .atom (.boolA true)),
   ("errctl", cls.ERRCTL)]

/-- `DeviceOperatorMixin._normalize_kwargs`: pop every recognized
optimization knob in source order with its documented default —
`blocklazy` defaults to the negation of the popped `blockeager` value and
`gpu-fit` is resolved by `_normalize_gpu_fit` at its source position —
then fail with `InvalidOperator` naming the leftover keys if any remain;
on success the resolved entries are recorded in the source's insertion
order (`min-storage`, `cire-rotate`, the par-collapse/dynamic/nested
settings and `parallel` are constants, and the three `par-tile*` pops
feed the `ParTile` value). -/
def normalize_kwargs (cls : Cls) (mode : List String) (oo0 : Opts) :
    Except Err Opts :=
  match lookupOpt oo0 "mpi" with
  | none => .error (.keyError "mpi")
  | some vmpi =>
    let sA := popMany (eraseKey oo0 "mpi") (popSpecsA cls)
    let pLazy := pop sA.2 "blocklazy"
      (.atom (.boolA (!truthy (vOf sA.1 "blockeager"))))
    let sB := popMany pLazy.2 (popSpecsB cls)
    let gf := normalize_gpu_fit cls mode sB.2
    let sC := popMany gf.2 (popSpecsC cls)
    if sC.2.isEmpty then
      .ok [("mpi", vmpi), ("parallel", .atom (.boolA true)),
        ("buf-async-degree", vOf sA.1 "buf-async-degree"),
        ("fuse-tasks", vOf sA.1 "fuse-tasks"),
        ("cse-min-cost", vOf sA.1 "cse-min-cost"),
        ("blockinner", vOf sA.1 "blockinner"),
        ("blocklevels", vOf sA.1 "blocklevels"),
        ("blockeager", vOf sA.1 "blockeager"),
        ("blocklazy", pLazy.1),
        ("blockrelax", vOf sB.1 "blockrelax"),
        ("skewing", vOf sB.1 "skewing"),
        ("min-storage", .atom (.boolA false)),
        ("cire-rotate", .atom (.boolA false)),
        ("cire-maxpar", vOf sB.1 "cire-maxpar"),
        ("cire-ftemps", vOf sB.1 "cire-ftemps"),
        ("cire-mingain", vOf sB.1 "cire-mingain"),
        ("cire-schedule", vOf sB.1 "cire-schedule"),
        ("par-tile", .parTile (vOf sB.1 "par-tile") (vOf sB.1 "par-tile-sparse")
          (vOf sB.1 "par-tile-reduce")),
        ("par-collapse-ncores", .atom (.intA 1)),
        ("par-collapse-work", .atom (.intA 1)),
        ("par-chunk-nonaffine", vOf sB.1 "par-chunk-nonaffine"),
        ("par-dynamic-work", .inf), ("par-nested", .inf),
        ("par-disabled", vOf sB.1 "par-disabled"),
        ("gpu-fit", gf.1),
        ("gpu-create", asTupleV (vOf sC.1 "gpu-create")),
        ("dist-drop-unwritten", vOf sC.1 "dist-drop-unwritten"),
        ("expand", vOf sC.1 "expand"),
        ("deriv-schedule", vOf sC.1 "deriv-schedule"),
        ("deriv-unroll", vOf sC.1 "deriv-unroll"),
        ("opt-comms", vOf sC.1 "opt-comms"),
        ("linearize", vOf sC.1 "linearize"),
        ("mapify-reduce", vOf sC.1 "mapify-reduce"),
        ("index-mode", vOf sC.1 "index-mode"),
        ("place-transfers", vOf sC.1 "place-transfers"),
        ("errctl", vOf sC.1 "errctl")]
    else .error (.invalidOperator (unsupportedMsg (sC.2.map Prod.fst)))

/-- The pop targets of `_normalize_kwargs` (including `gpu-fit`, popped
inside `_normalize_gpu_fit`): the recognized option vocabulary of the
device operators at this level. -/
def recognizedKeys : List String :=
  ["mpi", "buf-async-degree", "fuse-tasks", "cse-min-cost", "blockinner",
   "blocklevels", "blockeager", "blocklazy", "blockrelax", "skewing",
   "cire-maxpar", "cire-ftemps", "cire-mingain", "cire-schedule",
   "par-tile", "par-tile-sparse", "par-tile-reduce", "par-chunk-nonaffine",
   "par-disabled", "gpu-fit", "gpu-create", "dist-drop-unwritten",
   "expand", "deriv-schedule", "deriv-unroll", "opt-comms", "linearize",
   "mapify-reduce", "index-mode", "place-transfers", "errctl"]

/-- An operator build at this fragment's granularity: options
normalization runs first; only on success does any pass stage run on the
normalized options. -/
def pipelineResult (cls : Cls) (mode : List String) (oo : Opts)
    (run : Opts → List String) : Except Err (List String) :=
  match normalize_kwargs cls mode oo with
  | .error e => .error e
  | .ok o => .ok (run o)

/-- `DeviceOmpOperatorMixin._normalize_kwargs`: force linearization on by
default (LLVM issue mitigation), drop a user `openmp` flag, run the base
normalization, then record `openmp = True` among the resolved options. -/
def omp_normalize_kwargs (cls : Cls) (mode : List String) (oo : Opts) :
    Except Err Opts :=
  let oo1 := setdefault oo "linearize" (.atom (.boolA true))
  let oo2 := eraseKey oo1 "openmp"
  match normalize_kwargs cls mode oo2 with
  | .error e => .error e
  | .ok o => .ok (setVal o "openmp" (.atom (.boolA true)))

/-- `DeviceAccOperatorMixin._normalize_kwargs`: drop a user `openmp` flag,
run the base normalization, then record `openacc = True`. -/
def acc_normalize_kwargs (cls : Cls) (mode : List String) (oo : Opts) :
    Except Err Opts :=
  let oo1 := eraseKey oo "openmp"
  match normalize_kwargs cls mode oo1 with
  | .error e => .error e
  | .ok o => .ok (setVal o "openacc" (.atom (.boolA true)))

/-- `DeviceOmpOperatorMixin._check_kwargs`: a non-empty (already
normalized, hence tuple-valued) `gpu-create` is unsupported under the
OpenMP device backend. -/
def omp_check_kwargs (o : Opts) : Except Err Unit :=
  match lookupOpt o "gpu-create" with
  | some (.tuple xs) =>
    if xs.length ≠ 0
    then .error (.invalidOperator "Unsupported gpu-create option for omp operators")
    else .ok ()
  | _ => .ok ()

/-- Modelled from the spec: the OpenACC mixin defines no `_check_kwargs`
override, so the base operator's no-op check applies — the explicit device
preallocation list is only invalid under the OpenMP backend. -/
def acc_check_kwargs (_ : Opts) : Except Err Unit := .ok ()

/-- The ordered cluster-stage pass applications of
`DeviceAdvOperator._specialize_clusters`, by pass name, as a function of
the normalized options (the pass bodies themselves are external
collaborators; both `blocking` applications call the same pass). -/
def adv_cluster_passes (o : Opts) : List String :=
  ["fuse-toposort", "fission", "cire-invariants", "lift"]
    ++ (if truthy ((lookupOpt o "blockeager").getD (.atom .noneA))
        then ["blocking"] else [])
    ++ ["cire-sops", "factorize", "optimize-pows", "fuse", "cse"]
    ++ (if truthy ((lookupOpt o "blocklazy").getD (.atom .noneA))
        then ["blocking"] else [])

/-- A function as seen by the streaming classifiers: its name, the name of
its time-like dimension (`f.time_dim`), and — for composite tensor-like
objects — the names of its constituent values. -/
structure Fn where
  name : String
  timeDim : String
  isTensor : Bool
  vals : List String
deriving DecidableEq

/-- Modelled from the spec: `is_on_device(f, gpu_fit_set)` (external to
this source) is the `fits` predicate — "true unless `f` (or, if `f` is a
composite/tensor-like object, any of its constituent values) is named in
`gpu_fit_set`". -/
def is_on_device (f : Fn) (gpuFit : List String) : Bool :=
  !(gpuFit.contains f.name ||
    (f.isTensor && f.vals.any (fun v => gpuFit.contains v)))

/-- `stream_key(items)` (the closure returned by `stream_key_wrap`): the
time dimensions of the functions that cannot stay in device memory —
returned as none (`[]`), a single dimension, or a set (here deduplicated
in first-seen order; the Python set's iteration order is unspecified but
the result is only ever consumed as a set). -/
def stream_key (gpuFit : List String) (items : List Fn) : List String :=
  Spec.filter_ordered
    ((items.filter (fun f => !is_on_device f gpuFit)).map Fn.timeDim)

/-- A cluster as consumed by the classifiers: the functions its scope
writes and reads, and its iteration space as a finite map from a
dimension's name to the cluster's own concrete dimension
(`c.ispace[d].dim`).  A dimension not in the map is returned unchanged
(the claims' clusters always carry their streaming dimensions in their
iteration space). -/
structure Cluster where
  writes : List Fn
  reads : List Fn
  ispace : List (String × String)
deriving DecidableEq

/-- `c.ispace[d].dim`. -/
def Cluster.ispaceDim (c : Cluster) (d : String) : String :=
  (c.ispace.lookup d).getD d

/-- `task_key(c)` (the closure returned by `task_wrap`): map the streaming
dimensions of the written functions into the cluster's own concrete
iteration-space dimensions; more than one distinct concrete dimension
raises `ValueError("Cannot determine a unique task Dimension")`, exactly
one is returned, none yields nothing. -/
def task_key (gpuFit : List String) (c : Cluster) :
    Except String (Option String) :=
  let dims := Spec.filter_ordered ((stream_key gpuFit c.writes).map c.ispaceDim)
  if dims.length > 1 then .error "Cannot determine a unique task Dimension"
  else .ok dims.head?

/-- `memcpy_key(c)` (the closure returned by `memcpy_wrap`): a truthy
`task_key` (writes take precedence over reads) yields nothing, a raising
`task_key` propagates; otherwise the identical procedure over the read
functions. -/
def memcpy_key (gpuFit : List String) (c : Cluster) :
    Except String (Option String) :=
  match task_key gpuFit c with
  | .error e => .error e
  | .ok (some _) => .ok none
  | .ok none =>
    let dims := Spec.filter_ordered ((stream_key gpuFit c.reads).map c.ispaceDim)
    if dims.length > 1 then .error "Cannot determine a unique memcpy Dimension"
    else .ok dims.head?

/-- Claim C4: write-driven tasking takes precedence over read-driven
copying — whenever `task_key` returns a dimension for a cluster,
`memcpy_key` returns nothing for the same cluster, so the two never both
fire. -/
theorem memcpy_none_of_task (gpuFit : List String) (c : Cluster) (d : String)
    (h : task_key gpuFit c = .ok (some d)) :
    memcpy_key gpuFit c = .ok none := by
  simp [memcpy_key, h]

/-- A scalar function on time dimension `ta`. -/
def fA3 : Fn := ⟨"fa", "ta", false, []⟩

/-- A scalar function on time dimension `tb`. -/
def fB3 : Fn := ⟨"fb", "tb", false, []⟩

/-- A scalar function on time dimension `tc`. -/
def fC3 : Fn := ⟨"fc", "tc", false, []⟩

/-- A cluster writing one off-device function. -/
def clOne : Cluster := ⟨[fA3], [fA3], [("ta", "ta")]⟩

/-- Witness for C4: a cluster with an off-device written function gets a
task dimension and no memcpy dimension. -/
theorem memcpy_none_of_task_witness :
    task_key ["fa"] clOne = .ok (some "ta") ∧
    memcpy_key ["fa"] clOne = .ok none :=
  ⟨by decide, memcpy_none_of_task ["fa"] clOne "ta" (by decide)⟩

/-- A cluster writing two off-device functions with concrete dimensions
`ta`/`tb`. -/
def clAmb1 : Cluster := ⟨[fA3, fB3], [], [("ta", "ta"), ("tb", "tb")]⟩

/-- A different cluster writing two off-device functions with the
different candidate set `ta`/`tc`. -/
def clAmb2 : Cluster := ⟨[fA3, fC3], [], [("ta", "ta"), ("tc", "tc")]⟩

/-- Everything is named off-device for the ambiguity examples. -/
def gAll : List String := ["fa", "fb", "fc"]

/-- Counterexample to claim C3 as stated: the >1-candidate failure is a
bare `ValueError` with a fixed message — two different clusters with
different candidate dimension sets produce IDENTICAL error values, so the
raised error carries neither the cluster nor the candidate dimension
set. -/
theorem task_key_error_payload_counterexample :
    clAmb1 ≠ clAmb2 ∧
    Spec.filter_ordered ((stream_key gAll clAmb1.writes).map clAmb1.ispaceDim) ≠
      Spec.filter_ordered ((stream_key gAll clAmb2.writes).map clAmb2.ispaceDim) ∧
    task_key gAll clAmb1 = .error "Cannot determine a unique task Dimension" ∧
    task_key gAll clAmb1 = task_key gAll clAmb2 :=
  ⟨by decide, by decide, by decide, by decide⟩

/-- Claim C3 (amended): with more than one distinct concrete
iteration-space dimension among the written off-device functions,
`task_key` raises — but as a `ValueError` carrying only the fixed message
"Cannot determine a unique task Dimension", not the cluster or the
candidate set; with zero candidates it returns nothing; with exactly one
off-device written function it returns that function's concrete streaming
dimension. -/
theorem task_key_characterization (gpuFit : List String) (c : Cluster) :
    ((Spec.filter_ordered
        ((stream_key gpuFit c.writes).map c.ispaceDim)).length > 1 →
      task_key gpuFit c = .error "Cannot determine a unique task Dimension") ∧
    (Spec.filter_ordered ((stream_key gpuFit c.writes).map c.ispaceDim) = [] →
      task_key gpuFit c = .ok none) ∧
    (∀ f, c.writes.filter (fun f' => !is_on_device f' gpuFit) = [f] →
      task_key gpuFit c = .ok (some (c.ispaceDim f.timeDim))) := by
  refine ⟨?_, ?_, ?_⟩
  · intro h
    simp only [task_key]
    rw [if_pos h]
  · intro h
    simp [task_key, h]
  · intro f hf
    have hs : stream_key gpuFit c.writes = [f.timeDim] := by
      rw [stream_key, hf]
      simp [Spec.filter_ordered, Spec.filterOrderedGo]
    simp [task_key, hs, Spec.filter_ordered, Spec.filterOrderedGo]

/-- Witness for the amended C3, exercising all three branches: ambiguity
error on `clAmb1`, nothing for a cluster whose written function stays on
the device, and the concrete streaming dimension for a single off-device
write. -/
theorem task_key_characterization_witness :
    ((Spec.filter_ordered
        ((stream_key gAll clAmb1.writes).map clAmb1.ispaceDim)).length > 1 ∧
      task_key gAll clAmb1 = .error "Cannot determine a unique task Dimension") ∧
    (Spec.filter_ordered ((stream_key [] clOne.writes).map clOne.ispaceDim) = [] ∧
      task_key [] clOne = .ok none) ∧
    (clOne.writes.filter (fun f' => !is_on_device f' ["fa"]) = [fA3] ∧
      task_key ["fa"] clOne = .ok (some (clOne.ispaceDim fA3.timeDim))) :=
  ⟨⟨by decide, (task_key_characterization gAll clAmb1).1 (by decide)⟩,
   ⟨by decide, (task_key_characterization [] clOne).2.1 (by decide)⟩,
   ⟨by decide, (task_key_characterization ["fa"] clOne).2.2 fA3 (by decide)⟩⟩

/-- Claim C8: an explicit non-empty device-preallocation list
(`gpu-create`) is rejected by the OpenMP device backend's kwargs check and
accepted under the OpenACC backend (whose check is the base no-op). -/
theorem gpu_create_omp_only (o : Opts) (xs : List PyAtom)
    (h : lookupOpt o "gpu-create" = some (.tuple xs)) (hne : xs ≠ []) :
    omp_check_kwargs o =
      .error (.invalidOperator "Unsupported gpu-create option for omp operators") ∧
    acc_check_kwargs o = .ok () := by
  refine ⟨?_, rfl⟩
  simp only [omp_check_kwargs, h]
  rw [if_pos (fun hl => hne (List.length_eq_zero.mp hl))]

/-- A normalized options fragment carrying a non-empty gpu-create list. -/
def oC8 : Opts := [("gpu-create", .tuple [.strA "u"])]

/-- Witness for C8 at a concrete non-empty gpu-create list. -/
theorem gpu_create_omp_only_witness :
    (lookupOpt oC8 "gpu-create" = some (.tuple [.strA "u"]) ∧
      ([PyAtom.strA "u"] : List PyAtom) ≠ []) ∧
    (omp_check_kwargs oC8 =
      .error (.invalidOperator "Unsupported gpu-create option for omp operators") ∧
    acc_check_kwargs oC8 = .ok ()) :=
  ⟨⟨by decide, by decide⟩,
    gpu_create_omp_only oC8 [.strA "u"] (by decide) (by decide)⟩

/-- Claim C7: with no user-supplied gpu-fit, normalization resolves
gpu-fit to the singleton `(None,)` ("nothing fits") whenever the requested
mode names tasking or streaming, and to the class's `'all-fallback'`
default ("everything fits") otherwise. -/
theorem gpu_fit_default (cls : Cls) (mode : List String) (oo : Opts)
    (h : hasKey oo "gpu-fit" = false)
    (hcls : cls.GPU_FIT = .atom (.strA "all-fallback")) :
    (normalize_gpu_fit cls mode oo).1 =
      if mode.contains "tasking" || mode.contains "streaming"
      then .tuple [.noneA] else .tuple [.strA "all-fallback"] := by
  have hl : lookupOpt oo "gpu-fit" = none := by
    cases hx : lookupOpt oo "gpu-fit" with
    | none => rfl
    | some v => rw [hasKey, hx] at h; simp at h
  simp only [normalize_gpu_fit, hl, hcls, asTupleV, as_tuple]
  split <;> rfl

/-- A user options mapping without a gpu-fit entry. -/
def ooC7 : Opts := [("mpi", .atom (.boolA false))]

/-- Default class constants for witnesses (values of the CoreOperator
constants are outside this source and not observed by the claims). -/
def cls0 : Cls :=
  { CSE_MIN_COST := .atom (.intA 1), CIRE_MINGAIN := .atom (.intA 10),
    CIRE_SCHEDULE := .atom (.strA "automatic"),
    PAR_CHUNK_NONAFFINE := .atom (.intA 3),
    DIST_DROP_UNWRITTEN := .atom (.boolA true),
    EXPAND := .atom (.boolA true), DERIV_SCHEDULE := .atom (.strA "basic"),
    MAPIFY_REDUCE := .atom (.boolA false),
    INDEX_MODE := .atom (.strA "int32"), ERRCTL := .atom .noneA }

/-- Witness for C7 in both branches: a tasking mode resolves to `(None,)`
and a plain advanced mode to `('all-fallback',)`. -/
theorem gpu_fit_default_witness :
    (hasKey ooC7 "gpu-fit" = false ∧ cls0.GPU_FIT = .atom (.strA "all-fallback")) ∧
    (normalize_gpu_fit cls0 ["tasking"] ooC7).1 = .tuple [.noneA] ∧
    (normalize_gpu_fit cls0 ["advanced"] ooC7).1 = .tuple [.strA "all-fallback"] :=
  ⟨⟨by decide, by decide⟩,
   by rw [gpu_fit_default cls0 ["tasking"] ooC7 (by decide) rfl]; decide,
   by rw [gpu_fit_default cls0 ["advanced"] ooC7 (by decide) rfl]; decide⟩

/-- Lookup after removing a (different) key. -/
theorem lookupOpt_eraseKey (oo : Opts) (k k' : String) :
    lookupOpt (eraseKey oo k') k = if k = k' then none else lookupOpt oo k := by
  induction oo with
  | nil => by_cases h : k = k' <;> simp [eraseKey, lookupOpt, h]
  | cons p rest ih =>
    obtain ⟨k0, v0⟩ := p
    by_cases h0 : k0 = k'
    · have hdrop : eraseKey ((k0, v0) :: rest) k' = eraseKey rest k' := by
        simp [eraseKey, List.filter_cons, h0]
      rw [hdrop, ih]
      by_cases h1 : k = k'
      · simp [h1]
      · have h2 : ¬ k0 = k := fun hc => h1 ((hc.symm.trans h0))
        simp [h1, lookupOpt, h2]
    · have hkeep : eraseKey ((k0, v0) :: rest) k' = (k0, v0) :: eraseKey rest k' := by
        simp [eraseKey, List.filter_cons, h0]
      rw [hkeep]
      by_cases h1 : k0 = k
      · subst h1
        have h2 : ¬ k0 = k' := h0
        have h3 : ¬ (k0 = k') := h0
        simp [lookupOpt, fun hc : k0 = k' => h0 hc]
      · simp only [lookupOpt, h1, if_neg]
        exact ih

/-- Key presence after removing a key. -/
theorem hasKey_eraseKey (oo : Opts) (k k' : String) :
    hasKey (eraseKey oo k') k = (!(decide (k = k')) && hasKey oo k) := by
  by_cases h : k = k' <;> simp [hasKey, lookupOpt_eraseKey, h]

/-- Removing an absent key changes nothing. -/
theorem eraseKey_of_absent (oo : Opts) (k : String)
    (h : lookupOpt oo k = none) : eraseKey oo k = oo := by
  induction oo with
  | nil => rfl
  | cons p rest ih =>
    obtain ⟨k0, v0⟩ := p
    by_cases h0 : k0 = k
    · rw [lookupOpt, if_pos h0] at h
      cases h
    · rw [lookupOpt, if_neg h0] at h
      have hkeep : eraseKey ((k0, v0) :: rest) k = (k0, v0) :: eraseKey rest k := by
        simp [eraseKey, List.filter_cons, h0]
      rw [hkeep, ih h]

/-- The options state left by `_normalize_gpu_fit` is exactly the input
without `gpu-fit` (when the key was absent, nothing changes). -/
theorem normalize_gpu_fit_snd (cls : Cls) (mode : List String) (oo : Opts) :
    (normalize_gpu_fit cls mode oo).2 = eraseKey oo "gpu-fit" := by
  cases h : lookupOpt oo "gpu-fit" with
  | some v => simp [normalize_gpu_fit, h]
  | none =>
    have he : eraseKey oo "gpu-fit" = oo := eraseKey_of_absent oo _ h
    simp only [normalize_gpu_fit, h]
    split <;> simp [he]

/-- A key is present exactly when it appears among the mapping's keys. -/
theorem hasKey_iff_mem_fst (oo : Opts) (k : String) :
    hasKey oo k = true ↔ k ∈ oo.map Prod.fst := by
  induction oo with
  | nil => simp [hasKey, lookupOpt]
  | cons p rest ih =>
    obtain ⟨k0, v0⟩ := p
    by_cases h : k0 = k
    · simp [hasKey, lookupOpt, h]
    · have hstep : hasKey ((k0, v0) :: rest) k = hasKey rest k := by
        simp [hasKey, lookupOpt, h]
      rw [hstep, List.map_cons, List.mem_cons, ih]
      simp only [iff_def]
      constructor
      · exact fun hm => Or.inr hm
      · rintro (hc | hm)
        · exact absurd hc.symm h
        · exact hm

/-- Lookup distributes over append, preferring the left mapping. -/
theorem lookupOpt_append (a b : Opts) (k : String) :
    lookupOpt (a ++ b) k =
      match lookupOpt a k with
      | some v => some v
      | none => lookupOpt b k := by
  induction a with
  | nil => simp [lookupOpt]
  | cons p rest ih =>
    by_cases h : p.1 = k <;> simp [lookupOpt, h, ih]

/-- Lookup after the in-place replacement branch of `setVal`. -/
theorem lookupOpt_mapReplace (oo : Opts) (k k' : String) (v : PyVal)
    (h : k ≠ k') :
    lookupOpt (List.map (fun p => if p.1 = k' then (k', v) else p) oo) k =
      lookupOpt oo k := by
  induction oo with
  | nil => simp [lookupOpt]
  | cons p rest ih =>
    obtain ⟨k0, v0⟩ := p
    rw [List.map_cons]
    by_cases h0 : k0 = k'
    · subst h0
      rw [show (if ((k0, v0) : String × PyVal).1 = k0 then (k0, v) else (k0, v0)) =
          (k0, v) from if_pos rfl]
      have h1 : ¬ (k0 = k) := fun hc => h hc.symm
      simp only [lookupOpt]
      rw [if_neg h1, if_neg h1]
      exact ih
    · rw [show (if ((k0, v0) : String × PyVal).1 = k' then (k', v) else (k0, v0)) =
          (k0, v0) from if_neg h0]
      by_cases h1 : k0 = k
      · simp only [lookupOpt]
        rw [if_pos h1, if_pos h1]
      · simp only [lookupOpt]
        rw [if_neg h1, if_neg h1]
        exact ih

/-- No key is present in the empty mapping. -/
theorem hasKey_nil (k : String) : hasKey ([] : Opts) k = false := rfl

/-- The mapping state left by `oo.pop(k, d)`. -/
theorem pop_snd (oo : Opts) (k : String) (d : PyVal) :
    (pop oo k d).2 = eraseKey oo k := rfl

/-- The value produced by `oo.pop(k, d)`. -/
theorem pop_fst (oo : Opts) (k : String) (d : PyVal) :
    (pop oo k d).1 = (lookupOpt oo k).getD d := rfl

/-- Sequential removal of a list of keys (the cumulative mapping state of
a pop chain). -/
def removeKeys (oo : Opts) (ks : List String) : Opts := ks.foldl eraseKey oo

/-- A single removal as a one-key chain. -/
theorem eraseKey_single (oo : Opts) (k : String) :
    eraseKey oo k = removeKeys oo [k] := rfl

/-- Merging consecutive removal chains. -/
theorem removeKeys_removeKeys (oo : Opts) (ks1 ks2 : List String) :
    removeKeys (removeKeys oo ks1) ks2 = removeKeys oo (ks1 ++ ks2) := by
  simp [removeKeys, List.foldl_append]

/-- Key presence after removing a list of keys. -/
theorem hasKey_removeKeys (ks : List String) (oo : Opts) (x : String) :
    hasKey (removeKeys oo ks) x = (!(ks.contains x) && hasKey oo x) := by
  induction ks generalizing oo with
  | nil => simp [removeKeys, List.foldl, hasKey]
  | cons a rest ih =>
    show hasKey (removeKeys (eraseKey oo a) rest) x = _
    rw [ih, hasKey_eraseKey]
    by_cases h : x = a <;> simp [h, Bool.and_assoc]

/-- Lookup after removing a list of keys. -/
theorem lookupOpt_removeKeys (ks : List String) (oo : Opts) (x : String) :
    lookupOpt (removeKeys oo ks) x =
      if ks.contains x then none else lookupOpt oo x := by
  induction ks generalizing oo with
  | nil => simp [removeKeys, List.foldl]
  | cons a rest ih =>
    show lookupOpt (removeKeys (eraseKey oo a) rest) x = _
    rw [ih, lookupOpt_eraseKey]
    by_cases h : x = a <;> simp [h]

/-- The mapping state after a pop sequence is the input minus the popped
keys, in order. -/
theorem popMany_snd (specs : List (String × PyVal)) (oo : Opts) :
    (popMany oo specs).2 = removeKeys oo (specs.map Prod.fst) := by
  induction specs generalizing oo with
  | nil => rfl
  | cons s rest ih =>
    show (popMany (pop oo s.1 s.2).2 rest).2 = _
    rw [ih, pop_snd]
    rfl

/-- With pairwise-distinct keys (as in the spec lists), each pop of the
sequence reads the value the original mapping holds for its key. -/
theorem popMany_fst (specs : List (String × PyVal)) (oo : Opts)
    (hnd : (specs.map Prod.fst).Nodup) :
    (popMany oo specs).1 =
      specs.map (fun s => (s.1, (lookupOpt oo s.1).getD s.2)) := by
  induction specs generalizing oo with
  | nil => rfl
  | cons s rest ih =>
    rw [List.map_cons, List.nodup_cons] at hnd
    show ((s.1, (pop oo s.1 s.2).1) :: (popMany (pop oo s.1 s.2).2 rest).1) = _
    rw [pop_fst, pop_snd, ih _ hnd.2, List.map_cons]
    congr 1
    apply List.map_congr_left
    intro t ht
    have hne : t.1 ≠ s.1 := fun hc => hnd.1 (hc ▸ List.mem_map_of_mem Prod.fst ht)
    rw [lookupOpt_eraseKey, if_neg hne]

/-- Claim C6: an options mapping containing any key outside the recognized
vocabulary makes normalization fail with `InvalidOperator` (the spec's
ConfigurationError) whose message names the offending keys, and the
failure happens before any pass executes — the build result is the error
for every conceivable pass runner.  The mapping carries the mandatory
`mpi` key, which the operator driver seeds for every compilation before
normalization (`oo.pop('mpi')` has no default). -/
theorem normalize_unknown_key_error (cls : Cls) (mode : List String)
    (oo : Opts) (k : String)
    (hmpi : hasKey oo "mpi" = true) (hk : hasKey oo k = true)
    (hunk : k ∉ recognizedKeys) :
    ∃ ks, k ∈ ks ∧ ∀ run, pipelineResult cls mode oo run =
      .error (.invalidOperator (unsupportedMsg ks)) := by
  obtain ⟨vmpi, hv⟩ : ∃ v, lookupOpt oo "mpi" = some v := by
    cases hx : lookupOpt oo "mpi" with
    | none => rw [hasKey, hx] at hmpi; simp at hmpi
    | some v => exact ⟨v, rfl⟩
  have hcon : recognizedKeys.contains k = false := by
    cases hcc : recognizedKeys.contains k
    · rfl
    · exact absurd (by simpa using hcc) hunk
  have hmain : ∃ ks, k ∈ ks ∧ normalize_kwargs cls mode oo =
      .error (.invalidOperator (unsupportedMsg ks)) := by
    refine ⟨(removeKeys oo recognizedKeys).map Prod.fst, ?mem, ?main⟩
    case main =>
      unfold normalize_kwargs
      simp only [hv]
      split
      · next hemp =>
        exfalso
        simp only [popMany_snd, pop_snd, normalize_gpu_fit_snd, popSpecsA,
          popSpecsB, popSpecsC, List.map_cons, List.map_nil, eraseKey_single,
          removeKeys_removeKeys, List.cons_append, List.nil_append] at hemp
        have h2 := congrArg (fun l => hasKey l k) (List.isEmpty_iff.mp hemp)
        replace h2 : hasKey (removeKeys oo recognizedKeys) k = hasKey [] k := h2
        rw [hasKey_removeKeys, hcon, hk, hasKey_nil] at h2
        cases h2
      · simp only [popMany_snd, pop_snd, normalize_gpu_fit_snd, popSpecsA,
          popSpecsB, popSpecsC, List.map_cons, List.map_nil, eraseKey_single,
          removeKeys_removeKeys, List.cons_append, List.nil_append]
        rfl
    case mem =>
      rw [← hasKey_iff_mem_fst, hasKey_removeKeys, hcon, hk]
      rfl
  obtain ⟨ks, hmem, hnorm⟩ := hmain
  exact ⟨ks, hmem, fun run => by simp [pipelineResult, hnorm]⟩

/-- A user options mapping carrying an unknown key. -/
def ooC6 : Opts :=
  [("mpi", .atom (.boolA false)), ("totally-bogus-key", .atom (.intA 1))]

/-- Witness for C6: `{"totally-bogus-key": 1}` (with the driver-seeded
`mpi` entry) fails normalization with an error naming the bogus key, for
any pass runner. -/
theorem normalize_unknown_key_error_witness :
    (hasKey ooC6 "mpi" = true ∧ hasKey ooC6 "totally-bogus-key" = true ∧
      "totally-bogus-key" ∉ recognizedKeys) ∧
    (∃ ks, "totally-bogus-key" ∈ ks ∧
      ∀ run, pipelineResult cls0 ["advanced"] ooC6 run =
        .error (.invalidOperator (unsupportedMsg ks))) :=
  ⟨⟨by decide, by decide, by decide⟩,
    normalize_unknown_key_error cls0 ["advanced"] ooC6 "totally-bogus-key"
      (by decide) (by decide) (by decide)⟩

/-- An absent key looks up to nothing. -/
theorem lookupOpt_eq_none_of_not_hasKey (oo : Opts) (k : String)
    (h : hasKey oo k = false) : lookupOpt oo k = none := by
  cases hx : lookupOpt oo k with
  | none => rfl
  | some v => rw [hasKey, hx] at h; simp at h

/-- The `blockeager` entry of the normalized options is the user value if
supplied, else the class default. -/
theorem normalize_blockeager (cls : Cls) (mode : List String) (oo o : Opts)
    (hok : normalize_kwargs cls mode oo = .ok o) :
    lookupOpt o "blockeager" =
      some ((lookupOpt oo "blockeager").getD cls.BLOCK_EAGER) := by
  obtain ⟨vmpi, hv⟩ : ∃ v, lookupOpt oo "mpi" = some v := by
    cases hx : lookupOpt oo "mpi" with
    | none =>
      simp only [normalize_kwargs, hx] at hok
      exact Except.noConfusion hok
    | some v => exact ⟨v, rfl⟩
  unfold normalize_kwargs at hok
  simp only [hv] at hok
  split at hok
  · cases hok
    simp only [lookupOpt, String.reduceEq, reduceIte]
    rw [popMany_fst _ _ (by simp only [popSpecsA, List.map_cons, List.map_nil]; decide)]
    simp [popSpecsA, vOf, lookupOpt, lookupOpt_eraseKey]
  · cases hok

/-- The `blocklazy` entry of the normalized options is the user value if
supplied, else the negation of the resolved `blockeager` value. -/
theorem normalize_blocklazy (cls : Cls) (mode : List String) (oo o : Opts)
    (hok : normalize_kwargs cls mode oo = .ok o) :
    lookupOpt o "blocklazy" =
      some ((lookupOpt oo "blocklazy").getD
        (.atom (.boolA (!truthy ((lookupOpt oo "blockeager").getD
          cls.BLOCK_EAGER))))) := by
  obtain ⟨vmpi, hv⟩ : ∃ v, lookupOpt oo "mpi" = some v := by
    cases hx : lookupOpt oo "mpi" with
    | none =>
      simp only [normalize_kwargs, hx] at hok
      exact Except.noConfusion hok
    | some v => exact ⟨v, rfl⟩
  unfold normalize_kwargs at hok
  simp only [hv] at hok
  split at hok
  · cases hok
    simp only [lookupOpt, String.reduceEq, reduceIte]
    rw [pop_fst, popMany_snd,
      popMany_fst _ _ (by simp only [popSpecsA, List.map_cons, List.map_nil]; decide)]
    simp only [popSpecsA, List.map_cons, List.map_nil, lookupOpt_removeKeys]
    simp [vOf, lookupOpt, lookupOpt_eraseKey]
  · cases hok

/-- The `linearize` entry of the normalized options is the user value if
supplied, else `False`. -/
theorem normalize_linearize (cls : Cls) (mode : List String) (oo o : Opts)
    (hok : normalize_kwargs cls mode oo = .ok o) :
    lookupOpt o "linearize" =
      some ((lookupOpt oo "linearize").getD (.atom (.boolA false))) := by
  obtain ⟨vmpi, hv⟩ : ∃ v, lookupOpt oo "mpi" = some v := by
    cases hx : lookupOpt oo "mpi" with
    | none =>
      simp only [normalize_kwargs, hx] at hok
      exact Except.noConfusion hok
    | some v => exact ⟨v, rfl⟩
  unfold normalize_kwargs at hok
  simp only [hv] at hok
  split at hok
  · cases hok
    simp only [lookupOpt, String.reduceEq, reduceIte]
    simp only [normalize_gpu_fit_snd, popMany_snd, pop_snd, popSpecsA, popSpecsB,
      List.map_cons, List.map_nil, eraseKey_single, removeKeys_removeKeys,
      List.cons_append, List.nil_append]
    rw [popMany_fst _ _ (by simp only [popSpecsC, List.map_cons, List.map_nil]; decide)]
    simp only [popSpecsC, List.map_cons, List.map_nil]
    simp only [lookupOpt_removeKeys]
    simp only [vOf, lookupOpt, String.reduceEq, reduceIte]
    rfl
  · cases hok

/-- Lookup of a different key after `setVal`. -/
theorem lookupOpt_setVal_ne (oo : Opts) (k k' : String) (v : PyVal)
    (h : k ≠ k') : lookupOpt (setVal oo k' v) k = lookupOpt oo k := by
  unfold setVal
  split
  · exact lookupOpt_mapReplace oo k k' v h
  · rw [lookupOpt_append]
    cases hx : lookupOpt oo k with
    | some v' => rfl
    | none =>
      simp only [lookupOpt]
      rw [if_neg (fun hc : k' = k => h hc.symm)]

/-- Options supplying both eager and lazy blocking explicitly. -/
def ooC9 : Opts :=
  [("mpi", .atom (.boolA false)), ("blockeager", .atom (.boolA true)),
   ("blocklazy", .atom (.boolA true))]

/-- C9 counterexample: with `blockeager=True` and `blocklazy=True` both
supplied, normalization accepts the options and the Adv cluster pipeline
applies the `blocking` pass twice in the same run — once eagerly and once
lazily — so the two are not mutually exclusive. -/
theorem adv_blocking_both_counterexample :
    (normalize_kwargs cls0 ["advanced"] ooC9).map
      (fun o => (adv_cluster_passes o).count "blocking") = .ok 2 := by
  decide

/-- C9 (amended): if the user does not supply `blocklazy`, the Adv cluster
pipeline applies `blocking` exactly once, and when `blockeager` is also
unsupplied and the class default leaves eager blocking off, the run is
lazy: `blockeager` resolves to `False` and `blocklazy` to `True`. -/
theorem adv_blocking_exclusive (cls : Cls) (mode : List String) (oo o : Opts)
    (hbl : hasKey oo "blocklazy" = false)
    (hok : normalize_kwargs cls mode oo = .ok o) :
    (adv_cluster_passes o).count "blocking" = 1 ∧
      (hasKey oo "blockeager" = false →
        cls.BLOCK_EAGER = .atom (.boolA false) →
        lookupOpt o "blockeager" = some (.atom (.boolA false)) ∧
          lookupOpt o "blocklazy" = some (.atom (.boolA true))) := by
  have he := normalize_blockeager cls mode oo o hok
  have hl := normalize_blocklazy cls mode oo o hok
  rw [lookupOpt_eq_none_of_not_hasKey oo "blocklazy" hbl] at hl
  simp only [Option.getD_none] at hl
  constructor
  · unfold adv_cluster_passes
    rw [he, hl]
    simp only [Option.getD_some]
    rcases Bool.eq_false_or_eq_true
        (truthy ((lookupOpt oo "blockeager").getD cls.BLOCK_EAGER)) with hb | hb <;>
      simp only [hb] <;> decide
  · intro hke hdf
    rw [lookupOpt_eq_none_of_not_hasKey oo "blockeager" hke, hdf] at he hl
    simp only [Option.getD_none] at he hl
    refine ⟨he, ?h⟩
    rw [hl]
    rfl

/-- Options for the C9 witness: only the mandatory `mpi`, with blocking
left entirely to the defaults. -/
def ooC9w : Opts := [("mpi", .atom (.boolA false))]

/-- The options that normalization resolves from `ooC9w`. -/
def oC9 : Opts :=
  match normalize_kwargs cls0 ["advanced"] ooC9w with
  | .ok o => o
  | .error _ => []

/-- Witness for the C9 theorem at concrete inputs. -/
theorem adv_blocking_exclusive_witness :
    hasKey ooC9w "blocklazy" = false ∧
      ((adv_cluster_passes oC9).count "blocking" = 1 ∧
        (hasKey ooC9w "blockeager" = false →
          cls0.BLOCK_EAGER = .atom (.boolA false) →
          lookupOpt oC9 "blockeager" = some (.atom (.boolA false)) ∧
            lookupOpt oC9 "blocklazy" = some (.atom (.boolA true)))) :=
  ⟨by decide,
    adv_blocking_exclusive cls0 ["advanced"] ooC9w oC9 (by decide) (by decide)⟩

/-- C10: when the user does not supply `linearize`, the OpenMP device
backend's normalization resolves it to `True` (its `_normalize_kwargs`
sets the default before delegating to the base), while the OpenACC device
backend's normalization resolves it to `False` (the base default). -/
theorem linearize_backend_defaults (cls : Cls) (mode : List String)
    (oo o1 o2 : Opts) (hnl : hasKey oo "linearize" = false)
    (h1 : omp_normalize_kwargs cls mode oo = .ok o1)
    (h2 : acc_normalize_kwargs cls mode oo = .ok o2) :
    lookupOpt o1 "linearize" = some (.atom (.boolA true)) ∧
      lookupOpt o2 "linearize" = some (.atom (.boolA false)) := by
  constructor
  · unfold omp_normalize_kwargs at h1
    rw [setdefault, if_neg (by rw [hnl]; exact Bool.false_ne_true)] at h1
    simp only [] at h1
    rcases hbase : normalize_kwargs cls mode
        (eraseKey (oo ++ [("linearize", .atom (.boolA true))]) "openmp") with e | ob
    · rw [hbase] at h1; exact Except.noConfusion h1
    · rw [hbase] at h1
      cases h1
      rw [lookupOpt_setVal_ne _ _ _ _ (by decide),
        normalize_linearize cls mode _ ob hbase, lookupOpt_eraseKey,
        if_neg (by decide), lookupOpt_append,
        lookupOpt_eq_none_of_not_hasKey oo "linearize" hnl]
      rfl
  · unfold acc_normalize_kwargs at h2
    simp only [] at h2
    rcases hbase : normalize_kwargs cls mode (eraseKey oo "openmp") with e | ob
    · rw [hbase] at h2; exact Except.noConfusion h2
    · rw [hbase] at h2
      cases h2
      rw [lookupOpt_setVal_ne _ _ _ _ (by decide),
        normalize_linearize cls mode _ ob hbase, lookupOpt_eraseKey,
        if_neg (by decide),
        lookupOpt_eq_none_of_not_hasKey oo "linearize" hnl]
      rfl

/-- Options for the C10 witness: only the mandatory `mpi`. -/
def ooC10 : Opts := [("mpi", .atom (.boolA false))]

/-- The options the OpenMP backend resolves from `ooC10`. -/
def oC10a : Opts :=
  match omp_normalize_kwargs cls0 ["advanced"] ooC10 with
  | .ok o => o
  | .error _ => []

/-- The options the OpenACC backend resolves from `ooC10`. -/
def oC10b : Opts :=
  match acc_normalize_kwargs cls0 ["advanced"] ooC10 with
  | .ok o => o
  | .error _ => []

/-- Witness for the C10 theorem at concrete inputs. -/
theorem linearize_backend_defaults_witness :
    hasKey ooC10 "linearize" = false ∧
      (lookupOpt oC10a "linearize" = some (.atom (.boolA true)) ∧
        lookupOpt oC10b "linearize" = some (.atom (.boolA false))) :=
  ⟨by decide,
    linearize_backend_defaults cls0 ["advanced"] ooC10 oC10a oC10b
      (by decide) (by decide) (by decide)⟩

end Spec.Gpu
